import Mathlib

/-!
# Verification of the tinyvegeta memory subsystem (`src/memory/store.rs`, `src/memory/lock.rs`)

Shallow embedding of the persistent knowledge layer ("Memory"): scoped stores of
`MemoryEntry` records, capacity pruning, the relevance ranker, the compactor and the
file-marker lock.

Modelling conventions:
* Rust `String` values are modelled as `List Char`; `str::to_lowercase` is modelled
  character-wise (`Char.toLower`, ASCII case mapping), `str::contains` as list infix
  (`<:+:`), and byte lengths/FNV hashing go through an explicit UTF-8 encoder, so the
  byte-level behaviour of the source is preserved on all inputs.
* `f32` arithmetic is idealised as exact arithmetic: stored `importance` values and the
  eviction score live in `ℚ`; the relevance score and cosine similarity (which involve a
  square root) live in `ℝ`.  `i64`/`u64` integers are `ℤ`/`ℕ`, with wrapping subtraction
  made explicit where the source can wrap.
* `HashMap<String, MemoryEntry>` is modelled as an association list of entries (the map
  key always equals the entry's `key` field, as maintained by every writer in the
  source); theorems assume the keys are `Nodup`, which every store reachable through the
  public API satisfies.  The unspecified `HashMap` iteration order is refined to list
  order; all claims proved here are insensitive to that choice (`sort_by` is stable and
  tie-breaking is never asserted).
* Rust's stable `sort_by` is modelled by `List.insertionSort`, which is likewise stable,
  with the same comparison.
* File I/O is abstracted away: a store operation acts on the decoded document it would
  load and returns the document it would save.  The lock manager acts on the marker
  file's state (`Option` of its mtime).
-/

/-! ## Strings -/

/-- Rust strings, as lists of characters. -/
abbrev Str := List Char

/-- Model of `str::to_lowercase` (character-wise ASCII case mapping). -/
def lowerStr (s : Str) : Str := s.map Char.toLower

/-- Model of Rust `char::is_whitespace` (as used by `split_whitespace`). -/
def isUniWs (c : Char) : Bool := c.isWhitespace

/-- Model of Rust `char::is_ascii_whitespace` (space, tab, LF, FF, CR). -/
def isAsciiWs (c : Char) : Bool :=
  c = ' ' || c = '\t' || c = '\n' || c = '\x0c' || c = '\r'

/-- Model of Rust `char::is_ascii_alphanumeric`. -/
def isAsciiAlnum (c : Char) : Bool :=
  ('a' ≤ c && c ≤ 'z') || ('A' ≤ c && c ≤ 'Z') || ('0' ≤ c && c ≤ '9')

/-- One step of word-splitting, consuming a character from the left. -/
def wordsStep (c : Char) (acc : List Str) : List Str :=
  if isUniWs c then [] :: acc
  else
    match acc with
    | [] => [[c]]
    | w :: ws => (c :: w) :: ws

/-- Model of Rust `str::split_whitespace`: maximal runs of non-whitespace characters. -/
def splitWs (s : Str) : List Str :=
  (s.foldr wordsStep []).filter (· ≠ [])

/-- UTF-8 encoding of one character, as byte values. -/
def utf8Bytes (c : Char) : List ℕ :=
  let n := c.toNat
  if n < 0x80 then [n]
  else if n < 0x800 then [0xC0 + n / 64, 0x80 + n % 64]
  else if n < 0x10000 then [0xE0 + n / 4096, 0x80 + (n / 64) % 64, 0x80 + n % 64]
  else [0xF0 + n / 262144, 0x80 + (n / 4096) % 64, 0x80 + (n / 64) % 64, 0x80 + n % 64]

/-- UTF-8 encoding of a string; `str::len` and `str::as_bytes` act on this. -/
def strBytes (s : Str) : List ℕ := s.flatMap utf8Bytes

/-- Model of Rust `str::len` (byte length). -/
def strLen (s : Str) : ℕ := (strBytes s).length

/-! ## Entry model (`store.rs` lines 14–98) -/

/-- `MemoryScope`: one of `Global | Agent | Team | Task`. -/
inductive MemoryScope where
  | Global
  | Agent
  | Team
  | Task
deriving DecidableEq, Repr

/-- `MemoryEntry`: one key-value record plus metadata.  `importance : f32` is idealised
as `ℚ`; millisecond timestamps (`i64`) are `ℤ`. -/
structure MemoryEntry where
  key : Str
  value : Str
  scope : MemoryScope
  scope_id : Option Str
  category : Option Str
  created_at : ℤ
  updated_at : ℤ
  expires_at : Option ℤ
  importance : ℚ
deriving DecidableEq, Repr

/-- `MemoryEntry::new`: fresh entry at the current time `now`, importance `1.0`, no
category, no expiry. -/
def MemoryEntry.new (key value : Str) (scope : MemoryScope) (scope_id : Option Str)
    (now : ℤ) : MemoryEntry :=
  { key := key
    value := value
    scope := scope
    scope_id := scope_id
    category := none
    created_at := now
    updated_at := now
    expires_at := none
    importance := 1 }

/-- `MemoryEntry::is_expired`: true iff `expires_at` is set and strictly in the past. -/
def MemoryEntry.is_expired (e : MemoryEntry) (now : ℤ) : Bool :=
  match e.expires_at with
  | some t => decide (t < now)
  | none => false

/-! ## Store model (`store.rs` lines 89–162): the entry map of one document.

The `HashMap<String, MemoryEntry>` is an association list of entries; the map key of the
source always equals the entry's `key` field. -/

/-- The decoded `entries` map of one store document. -/
abbrev StoreEntries := List MemoryEntry

/-- The keys of a store, in iteration order. -/
def storeKeys (s : StoreEntries) : List Str := s.map (·.key)

/-- `MemoryStore::get`: the entry under `key`, if present and not expired. -/
def storeGet (s : StoreEntries) (key : Str) (now : ℤ) : Option MemoryEntry :=
  (s.find? (·.key == key)).filter (fun e => !e.is_expired now)

/-- `HashMap::insert` keyed by the entry's `key` (`MemoryStore::set`): replace the
binding in place if the key is present, otherwise add it. -/
def storeSet (e : MemoryEntry) (s : StoreEntries) : StoreEntries :=
  if s.any (·.key == e.key) then s.map (fun x => if x.key == e.key then e else x)
  else s ++ [e]

/-- `HashMap::remove` keyed by `key` (`MemoryStore::delete`): drop the (unique) binding. -/
def storeRemove (key : Str) (s : StoreEntries) : StoreEntries :=
  s.eraseP (·.key == key)

/-- `MemoryStore::list_by_scope`: unexpired entries matching the scope and, when given,
the scope id. -/
def list_by_scope (s : StoreEntries) (scope : MemoryScope) (scope_id : Option Str)
    (now : ℤ) : StoreEntries :=
  s.filter (fun e =>
    decide (e.scope = scope)
      && (match scope_id with
          | none => true
          | some id => decide (e.scope_id = some id))
      && !e.is_expired now)

/-- `MemoryStore::list_by_category`: unexpired entries with the given category. -/
def list_by_category (s : StoreEntries) (category : Str) (now : ℤ) : StoreEntries :=
  s.filter (fun e => decide (e.category = some category) && !e.is_expired now)

/-- `MemoryStore::search`: unexpired entries whose lowercased key or value contains the
lowercased query as a substring. -/
def storeSearch (s : StoreEntries) (query : Str) (now : ℤ) : StoreEntries :=
  let query_lower := lowerStr query
  s.filter (fun e =>
    !e.is_expired now
      && (decide (query_lower <:+: lowerStr e.key)
          || decide (query_lower <:+: lowerStr e.value)))

/-- `MemoryStore::cleanup`: drop every expired entry, returning the new store and the
number of removals. -/
def storeCleanup (s : StoreEntries) (now : ℤ) : StoreEntries × ℕ :=
  let kept := s.filter (fun e => !e.is_expired now)
  (kept, s.length - kept.length)

/-! ## Capacity enforcer (`store.rs` lines 95–98, 575–599) -/

def GLOBAL_LIMIT : ℕ := 2000
def AGENT_LIMIT : ℕ := 1500
def TEAM_LIMIT : ℕ := 1500
def TASK_LIMIT : ℕ := 750

/-- `scope_limit`: the per-store entry cap of a scope. -/
def scope_limit (scope : MemoryScope) : ℕ :=
  match scope with
  | .Global => GLOBAL_LIMIT
  | .Agent => AGENT_LIMIT
  | .Team => TEAM_LIMIT
  | .Task => TASK_LIMIT

/-- The eviction score `importance * 10.0 + updated_at / 1e12` used by `prune_store`
(exact-rational idealisation of the `f32` computation). -/
def evictScore (e : MemoryEntry) : ℚ :=
  e.importance * 10 + (e.updated_at : ℚ) / 1000000000000

/-- The comparison `prune_store` sorts by: ascending eviction score. -/
def evictLe (a b : MemoryEntry) : Prop := evictScore a ≤ evictScore b

instance : DecidableRel evictLe := fun a b => inferInstanceAs (Decidable (_ ≤ _))

instance : IsTotal MemoryEntry evictLe := ⟨fun a b => le_total (evictScore a) (evictScore b)⟩

instance : IsTrans MemoryEntry evictLe := ⟨fun _ _ _ => le_trans⟩

/-- `prune_store`: when over the scope's cap, sort all entries ascending by
`evictScore` (stable sort, as Rust's `sort_by`) and remove the first
`count − cap` of them by key. -/
def prune_store (s : StoreEntries) (scope : MemoryScope) : StoreEntries :=
  let limit := scope_limit scope
  if s.length ≤ limit then s
  else
    let sorted := List.insertionSort evictLe s
    let remove_count := s.length - limit
    (sorted.take remove_count).foldl (fun st e => storeRemove e.key st) s

/-! ## Public mutating operations (`Memory::set`, `Memory::delete`): the store-level
transformation performed under the file lock.  File I/O (path resolution, lock
acquisition, load, save) is abstracted: the function maps the loaded document to the
document that is saved. -/

/-- `Memory::set`: build a fresh entry at time `now`, copying the previous category iff
the key was present and unexpired, insert it, then prune to the scope's cap.  The result
is the store that `save_store` persists. -/
def memorySet (key value : Str) (scope : MemoryScope) (scope_id : Option Str) (now : ℤ)
    (s : StoreEntries) : StoreEntries :=
  let base := MemoryEntry.new key value scope scope_id now
  let entry :=
    match storeGet s key now with
    | some existing => { base with category := existing.category }
    | none => base
  prune_store (storeSet entry s) scope

/-- `Memory::delete`: remove the key's binding and save. -/
def memoryDelete (key : Str) (s : StoreEntries) : StoreEntries :=
  storeRemove key s

/-- `Memory::get`: load the document and return the unexpired entry under `key`. -/
def memoryGet (key : Str) (now : ℤ) (s : StoreEntries) : Option MemoryEntry :=
  storeGet s key now

/-! ## Hashed bag-of-words embedding (`store.rs` lines 601–636) -/

/-- `normalized`: lowercase, replace every non-(ASCII-alphanumeric/ASCII-whitespace)
character by a space, then collapse whitespace runs by splitting and re-joining with
single spaces. -/
def normalized (s : Str) : Str :=
  let replaced := (lowerStr s).map (fun c => if !isAsciiAlnum c && !isAsciiWs c then ' ' else c)
  List.intercalate [' '] (splitWs replaced)

def FNV_OFFSET : ℕ := 1469598103934665603
def FNV_PRIME : ℕ := 1099511628211

/-- 64-bit FNV-1a over a token's UTF-8 bytes (wrapping multiplication made explicit). -/
def fnv1a (bytes : List ℕ) : ℕ :=
  bytes.foldl (fun h b => ((h ^^^ b) * FNV_PRIME) % 2 ^ 64) FNV_OFFSET

/-- The bucket `hash(token) mod 64` an embedding token lands in. -/
def bucket (tok : Str) : Fin 64 :=
  ⟨fnv1a (strBytes tok) % 64, Nat.mod_lt _ (by norm_num)⟩

/-- The raw (un-normalised) bucket counts of `text_embedding`'s accumulation loop:
one increment per whitespace token of `normalized text` (the `f32` accumulator only
ever holds exact small integers, so `ℕ` is a faithful carrier). -/
def embedCounts (text : Str) : Fin 64 → ℕ :=
  (splitWs (normalized text)).foldl
    (fun v tok => Function.update v (bucket tok) (v (bucket tok) + 1))
    (fun _ => 0)

/-- Exact dot product of two count vectors. -/
def dotQ (a b : Fin 64 → ℕ) : ℕ := ∑ i, a i * b i

/-- `text_embedding`: the bucket counts, L2-normalised when the norm is positive
(zero vector otherwise).  The square root forces the exact-real (`ℝ`) idealisation of
the `f32` computation. -/
noncomputable def text_embedding (text : Str) : Fin 64 → ℝ :=
  let v : Fin 64 → ℝ := fun i => (embedCounts text i : ℝ)
  let norm : ℝ := Real.sqrt (∑ i, v i * v i)
  if 0 < norm then fun i => v i / norm else v

/-- `cosine_sim`: the dot product of two (already normalised) 64-vectors. -/
noncomputable def cosine_sim (a b : Fin 64 → ℝ) : ℝ := ∑ i, a i * b i

/-! ## Relevance ranker (`Memory::relevant`, `store.rs` lines 390–437) -/

/-- The entries `relevant` returns: the stored fields with the presentational score
written over `importance`.  The score is an exact real, hence the separate record. -/
structure RelevantEntry where
  key : Str
  value : Str
  scope : MemoryScope
  scope_id : Option Str
  category : Option Str
  created_at : ℤ
  updated_at : ℤ
  expires_at : Option ℤ
  importance : ℝ

/-- The clone `relevant` builds: all stored fields kept, `importance` overwritten with
the computed score. -/
def MemoryEntry.withScore (e : MemoryEntry) (score : ℝ) : RelevantEntry :=
  ⟨e.key, e.value, e.scope, e.scope_id, e.category, e.created_at, e.updated_at,
   e.expires_at, score⟩

/-- The score `relevant` computes for one entry; `q` is the already-lowercased query.
Mirrors the source: start from `importance`; if the query is non-empty add 4.0 for a
full-query substring hit on lowercased key or value, 0.8 per query token of byte length
at least 3 hitting key or value, and 3.0 times the embedding cosine similarity of the
query and `key ++ " " ++ value`; finally add the recency bias `updated_at / 1.5e12`. -/
noncomputable def relevantScore (q : Str) (e : MemoryEntry) : ℝ :=
  let kl := lowerStr e.key
  let vl := lowerStr e.value
  let base : ℝ := (e.importance : ℝ)
  let score :=
    if q = [] then base
    else
      base + (if q <:+: kl ∨ q <:+: vl then 4 else 0)
        + ((splitWs q).countP
            (fun t => decide (3 ≤ strLen t)
              && (decide (t <:+: kl) || decide (t <:+: vl))) : ℕ) * (0.8 : ℝ)
        + cosine_sim (text_embedding q) (text_embedding (kl ++ [' '] ++ vl)) * 3
  score + (e.updated_at : ℝ) / 1500000000000

/-- The comparison `relevant`'s `sort_by(|a, b| b.importance.partial_cmp(&a.importance))`
sorts ascending by: descending displayed importance. -/
def scoreDesc (a b : RelevantEntry) : Prop := b.importance ≤ a.importance

noncomputable instance : DecidableRel scoreDesc :=
  fun a b => inferInstanceAs (Decidable (_ ≤ _))

instance : IsTotal RelevantEntry scoreDesc := ⟨fun a b => le_total b.importance a.importance⟩

instance : IsTrans RelevantEntry scoreDesc := ⟨fun _ _ _ h h' => le_trans h' h⟩

/-- `Memory::relevant`: score every unexpired entry of the loaded document, sort
descending by the (overwritten) `importance` with Rust's stable `sort_by`, truncate to
`limit`.  The document itself is not rewritten (no save): the model consumes the store
immutably and only returns the scored list. -/
noncomputable def memoryRelevant (query : Str) (s : StoreEntries) (now : ℤ)
    (limit : ℕ) : List RelevantEntry :=
  let q := lowerStr query
  let entries := (s.filter (fun e => !e.is_expired now)).map
    (fun e => e.withScore (relevantScore q e))
  (entries.insertionSort scoreDesc).take limit

/-! ## Compactor (`Memory::compact`, `store.rs` lines 518–564) -/

/-- The `{expired_removed, merged, promoted, pruned}` counters `compact` reports. -/
structure CompactReport where
  expired_removed : ℕ
  merged : ℕ
  promoted : ℕ
  pruned : ℕ
deriving DecidableEq, Repr

/-- The merge condition: equal normalised values, or embedding cosine similarity
strictly above 0.95. -/
def mergeCond (a b : MemoryEntry) : Prop :=
  normalized a.value = normalized b.value ∨
    cosine_sim (text_embedding a.value) (text_embedding b.value) > 0.95

noncomputable instance mergeCondDec : ∀ a b, Decidable (mergeCond a b) :=
  fun _ _ => Classical.propDecidable _

/-- One iteration of the merge loop body for the key pair `(ki, kj)`: if both keys
still hold entries and they satisfy `mergeCond`, the earlier key's entry takes
`updated_at := max of both` and `importance := max of both importances + 0.2`, the later
key is removed, and the merge counter advances. -/
noncomputable def mergeStep (ki kj : Str) (st : StoreEntries × ℕ) : StoreEntries × ℕ :=
  match st.1.find? (·.key == ki), st.1.find? (·.key == kj) with
  | some a, some b =>
    if mergeCond a b then
      (storeRemove kj (st.1.map (fun e =>
        if e.key == ki then
          { e with updated_at := max e.updated_at b.updated_at,
                   importance := max e.importance b.importance + 1/5 }
        else e)),
       st.2 + 1)
    else st
  | _, _ => st

/-- Lexicographic strict order on strings (Rust `String` ordering). -/
def strLt : Str → Str → Bool
  | [], [] => false
  | [], _ :: _ => true
  | _ :: _, [] => false
  | a :: as, b :: bs => if a < b then true else if b < a then false else strLt as bs

/-- Lexicographic `≤` on strings. -/
def strLe (a b : Str) : Bool := !(strLt b a)

/-- The sorted key list the merge pass iterates over (`keys.sort()`). -/
def sortedKeys (s : StoreEntries) : List Str :=
  List.insertionSort (fun a b => strLe a b = true) (storeKeys s)

/-- The merge pass as in the source: two nested index loops, `i` outer,
`j ∈ (i+1)..len` inner, running `mergeStep` on `(keys[i], keys[j])`. -/
noncomputable def mergePassIdx (keys : List Str) (st : StoreEntries × ℕ) :
    StoreEntries × ℕ :=
  (List.range keys.length).foldl (fun acc i =>
    (List.range' (i + 1) (keys.length - (i + 1))).foldl (fun acc2 j =>
      mergeStep (keys.getD i []) (keys.getD j []) acc2) acc) st

/-- `Memory::compact`: expire, merge, promote, prune; report all four counters and the
store that is saved. -/
noncomputable def memoryCompact (scope : MemoryScope) (s : StoreEntries) (now : ℤ) :
    StoreEntries × CompactReport :=
  let cleaned := storeCleanup s now
  let merged := mergePassIdx (sortedKeys cleaned.1) (cleaned.1, 0)
  let promoted :=
    (merged.1.map (fun e =>
      let k := lowerStr e.key
      if decide ("decision".toList <:+: k) || decide ("owner".toList <:+: k)
          || decide ("workspace".toList <:+: k) || decide ("incident".toList <:+: k)
      then { e with importance := e.importance + 3/10 } else e),
     merged.1.countP (fun e =>
      let k := lowerStr e.key
      decide ("decision".toList <:+: k) || decide ("owner".toList <:+: k)
        || decide ("workspace".toList <:+: k) || decide ("incident".toList <:+: k)))
  let before := promoted.1.length
  let afterPrune := prune_store promoted.1 scope
  (afterPrune,
   { expired_removed := cleaned.2
     merged := merged.2
     promoted := promoted.2
     pruned := before - afterPrune.length })

/-! ## Lock manager (`lock.rs`) -/

def LOCK_TIMEOUT_MS : ℕ := 5000

/-- Wrapping `u64` subtraction, as `now - mtime` compiles to in release mode. -/
def wrapSub (a b : ℕ) : ℕ := (a % 2 ^ 64 + 2 ^ 64 - b % 2 ^ 64) % 2 ^ 64

/-- Outcome of `acquire_lock` on a marker file in state `marker` (`none` = absent,
`some mtime` = present with that modification time): either the "Lock file is held"
error, or success together with the marker state left behind. -/
inductive LockAttempt where
  | locked
  | acquired (marker : Option ℕ)
deriving DecidableEq, Repr

/-- `acquire_lock` at time `now` (milliseconds): fail iff the marker exists and its age
is strictly below the 5000 ms staleness window; a stale marker is deleted and replaced;
on success the marker is freshly written (mtime `now`). -/
def acquire_lock (now : ℕ) (marker : Option ℕ) : LockAttempt :=
  match marker with
  | some mtime =>
      if wrapSub now mtime < LOCK_TIMEOUT_MS then .locked
      else .acquired (some now)
  | none => .acquired (some now)

/-- `with_lock`: acquire, run `f`, and release by deleting the marker when the handle
drops — on `f`'s success and error paths alike.  The returned error is `none` for the
lock-held failure and `some e` for `f`'s own error `e`; the second component is the
marker state after the call. -/
def with_lock {ε α : Type} (now : ℕ) (marker : Option ℕ) (f : Except ε α) :
    Except (Option ε) α × Option ℕ :=
  match acquire_lock now marker with
  | .locked => (.error none, marker)
  | .acquired _ => (f.mapError some, none)

/-! ## Claim-side (specification) definitions, written from the spec's sentences, to be
compared with the source-translated functions above. -/

/-- The relevance score exactly as the spec's sentence states it: stored importance,
plus 4.0 for a full-query substring hit, plus 0.8 per query token of length ≥ 3 hitting
key or value, plus 3.0 times the embedding cosine similarity of query and
`key ++ " " ++ value`, plus the recency term `updated_at / 1.5e12`. -/
noncomputable def claimScore (query : Str) (e : MemoryEntry) : ℝ :=
  (e.importance : ℝ)
    + (if lowerStr query <:+: lowerStr e.key ∨ lowerStr query <:+: lowerStr e.value
       then 4 else 0)
    + 0.8 * ((splitWs (lowerStr query)).countP
        (fun t => decide (3 ≤ strLen t)
          && (decide (t <:+: lowerStr e.key) || decide (t <:+: lowerStr e.value))) : ℕ)
    + 3 * cosine_sim (text_embedding (lowerStr query))
        (text_embedding (lowerStr e.key ++ [' '] ++ lowerStr e.value))
    + (e.updated_at : ℝ) / 1500000000000

/-- Descending order by `claimScore`, on the stored entries. -/
def claimDesc (query : Str) (a b : MemoryEntry) : Prop :=
  claimScore query b ≤ claimScore query a

noncomputable instance : ∀ q, DecidableRel (claimDesc q) :=
  fun _ a b => inferInstanceAs (Decidable (_ ≤ _))

instance claimDescTotal (q : Str) : IsTotal MemoryEntry (claimDesc q) :=
  ⟨fun a b => le_total (claimScore q b) (claimScore q a)⟩

instance claimDescTrans (q : Str) : IsTrans MemoryEntry (claimDesc q) :=
  ⟨fun _ _ _ h h' => le_trans h' h⟩

/-- `relevant` as the spec's sentence describes it: the unexpired candidates, sorted
descending by `claimScore`, truncated to `limit`, each carrying its score as the
presentational importance. -/
noncomputable def claimRelevant (query : Str) (s : StoreEntries) (now : ℤ)
    (limit : ℕ) : List RelevantEntry :=
  (((s.filter (fun e => !e.is_expired now)).insertionSort (claimDesc query)).take
      limit).map (fun e => e.withScore (claimScore query e))

/-- The merge pass as the spec's sentence describes it: consider the remaining entries
in ascending key order; for each key, run the merge body against every later key. -/
noncomputable def mergePassSpec : List Str → StoreEntries × ℕ → StoreEntries × ℕ
  | [], st => st
  | k :: rest, st => mergePassSpec rest (rest.foldl (fun acc kj => mergeStep k kj acc) st)

/-- A sequence of `set` calls against one store (key, value, time of the call). -/
def applySets (ops : List (Str × Str × ℤ)) (scope : MemoryScope) (scope_id : Option Str)
    (s : StoreEntries) : StoreEntries :=
  ops.foldl (fun st op => memorySet op.1 op.2.1 scope scope_id op.2.2 st) s

/-! ## Concrete stores used by counterexamples and witnesses -/

/-- A Task-scope entry with importance 2.0 (reachable through `compact`'s promotion
passes) whose key is `i` repetitions of `'a'` and whose update time is `i`. -/
def promotedEntry (i : ℕ) : MemoryEntry :=
  { key := List.replicate i 'a'
    value := ['v']
    scope := .Task
    scope_id := some ['t']
    category := none
    created_at := 0
    updated_at := (i : ℤ)
    expires_at := none
    importance := 2 }

/-- A Task store filled to its cap (750 entries), every entry promoted to
importance 2.0. -/
def fullTaskStore : StoreEntries := (List.range 750).map promotedEntry

/-- A Task store one entry over its cap. -/
def overfullTaskStore : StoreEntries := (List.range 751).map promotedEntry

/-- One-entry Global store whose entry was promoted to importance 2.0. -/
def promotedGlobalStore : StoreEntries :=
  [{ key := ['k']
     value := ['w']
     scope := .Global
     scope_id := none
     category := none
     created_at := 0
     updated_at := 0
     expires_at := none
     importance := 2 }]

/-- C7's query `"aaa bbb"`. -/
def c7Query : Str := ['a', 'a', 'a', ' ', 'b', 'b', 'b']

/-- C7's containing entry: its key contains the query `"aaa bbb"` verbatim. -/
def c7A : MemoryEntry :=
  { key := ['a', 'a', 'a', ' ', 'b', 'b', 'b']
    value := ['q', 'q']
    scope := .Global
    scope_id := none
    category := none
    created_at := 0
    updated_at := 0
    expires_at := none
    importance := 1 }

/-- C7's other entry: neither its key `"aaa"` nor its value `"bbb"` contains the query,
but its bag of words equals the query's, so its cosine similarity with the query is 1. -/
def c7B : MemoryEntry :=
  { key := ['a', 'a', 'a']
    value := ['b', 'b', 'b']
    scope := .Global
    scope_id := none
    category := none
    created_at := 0
    updated_at := 0
    expires_at := none
    importance := 1 }

/-! ## Derived predicates -/

/-- Well-formedness of a decoded store: its keys are pairwise distinct (a `HashMap`
invariant; every writer of the source maintains it). -/
def KeysNodup (s : StoreEntries) : Prop := (storeKeys s).Nodup

instance : ∀ s, Decidable (KeysNodup s) :=
  fun s => inferInstanceAs (Decidable (List.Nodup _))

/-- `StoreMono s₀ s₁`: every entry of `s₁` descends from an entry of `s₀` with the same
key and no larger importance.  Each compaction pass preserves this. -/
def StoreMono (s₀ s₁ : StoreEntries) : Prop :=
  ∀ r ∈ s₁, ∃ x ∈ s₀, r.key = x.key ∧ x.importance ≤ r.importance

/-! # Theorems

## Basic store lemmas -/

theorem mem_storeKeys {s : StoreEntries} {e : MemoryEntry} (he : e ∈ s) :
    e.key ∈ storeKeys s :=
  List.mem_map_of_mem _ he

theorem keysNodup_filter {s : StoreEntries} (hnd : KeysNodup s) (p : MemoryEntry → Bool) :
    KeysNodup (s.filter p) := by
  have h : (storeKeys (s.filter p)).Sublist (storeKeys s) := by
    simpa [storeKeys] using (List.filter_sublist s).map (·.key)
  exact h.nodup hnd

theorem keysNodup_cons {x : MemoryEntry} {t : StoreEntries} (hnd : KeysNodup (x :: t)) :
    x.key ∉ storeKeys t ∧ KeysNodup t := by
  rw [KeysNodup, storeKeys, List.map_cons, List.nodup_cons] at hnd
  exact hnd

theorem key_inj_of_nodup {s : StoreEntries} (hnd : KeysNodup s) {a b : MemoryEntry}
    (ha : a ∈ s) (hb : b ∈ s) (hk : a.key = b.key) : a = b :=
  List.inj_on_of_nodup_map hnd ha hb hk

theorem find?_key_eq_some_of_nodup {s : StoreEntries} {e : MemoryEntry}
    (hnd : KeysNodup s) (he : e ∈ s) : s.find? (·.key == e.key) = some e := by
  induction s with
  | nil => cases he
  | cons x t ih =>
    rcases List.mem_cons.mp he with rfl | ht
    · simp
    · have hx : (x.key == e.key) = false := by
        simp only [beq_eq_false_iff_ne, ne_eq]
        intro heq
        exact (keysNodup_cons hnd).1 (heq ▸ mem_storeKeys ht)
      simp only [List.find?_cons, hx]
      exact ih (keysNodup_cons hnd).2 ht

theorem keysNodup_storeRemove {s : StoreEntries} (hnd : KeysNodup s) (k : Str) :
    KeysNodup (storeRemove k s) := by
  have h : (storeKeys (storeRemove k s)).Sublist (storeKeys s) := by
    simpa [storeKeys, storeRemove] using (List.eraseP_sublist s).map (·.key)
  exact h.nodup hnd

theorem storeRemove_eq_filter {s : StoreEntries} (hnd : KeysNodup s) (k : Str) :
    storeRemove k s = s.filter (fun e => !(e.key == k)) := by
  induction s with
  | nil => rfl
  | cons x t ih =>
    by_cases hx : x.key = k
    · have hxk : (x.key == k) = true := beq_iff_eq.mpr hx
      have ht : t.filter (fun e => !(e.key == k)) = t := by
        apply List.filter_eq_self.mpr
        intro a ha
        have : ¬ a.key = k := by
          intro hak
          exact (keysNodup_cons hnd).1 (by rw [hx, ← hak]; exact mem_storeKeys ha)
        simp [this]
      simp [storeRemove, List.eraseP_cons, hxk, ht]
    · have hxk : (x.key == k) = false := by simp [hx]
      have hrec := ih (keysNodup_cons hnd).2
      simp only [storeRemove] at hrec
      simp [storeRemove, List.eraseP_cons, hxk, hrec]

theorem foldl_storeRemove_eq_filter (R : List MemoryEntry) :
    ∀ s : StoreEntries, KeysNodup s →
      R.foldl (fun st e => storeRemove e.key st) s =
        s.filter (fun x => decide (x.key ∉ storeKeys R)) := by
  induction R with
  | nil =>
    intro s _
    simp [storeKeys]
  | cons r R ih =>
    intro s hnd
    rw [List.foldl_cons, ih _ (keysNodup_storeRemove hnd r.key),
      storeRemove_eq_filter hnd, List.filter_filter]
    apply List.filter_congr
    intro x _
    by_cases h1 : x.key = r.key <;> by_cases h2 : x.key ∈ storeKeys R <;>
      simp [storeKeys, h1, h2]

/-! ## Capacity enforcer lemmas -/

theorem prune_store_of_le {s : StoreEntries} {scope : MemoryScope}
    (h : s.length ≤ scope_limit scope) : prune_store s scope = s := by
  simp only [prune_store]
  rw [if_pos h]

theorem prune_store_of_over {s : StoreEntries} {scope : MemoryScope}
    (h : scope_limit scope < s.length) :
    prune_store s scope =
      ((List.insertionSort evictLe s).take (s.length - scope_limit scope)).foldl
        (fun st e => storeRemove e.key st) s := by
  simp only [prune_store]
  rw [if_neg (by omega)]

theorem prune_store_eq_filter {s : StoreEntries} {scope : MemoryScope}
    (hnd : KeysNodup s) (h : scope_limit scope < s.length) :
    prune_store s scope = s.filter (fun x => decide (x.key ∉
      storeKeys ((List.insertionSort evictLe s).take (s.length - scope_limit scope)))) := by
  rw [prune_store_of_over h]
  exact foldl_storeRemove_eq_filter _ s hnd

theorem sorted_keysNodup {s : StoreEntries} (hnd : KeysNodup s) :
    KeysNodup (List.insertionSort evictLe s) := by
  have hperm : (storeKeys (List.insertionSort evictLe s)).Perm (storeKeys s) := by
    unfold storeKeys
    exact (List.perm_insertionSort evictLe s).map _
  exact hperm.nodup_iff.mpr hnd

theorem filter_split_drop {l : List MemoryEntry} {p : MemoryEntry → Bool} {m : ℕ}
    (htake : ∀ x ∈ l.take m, p x = false) (hdrop : ∀ x ∈ l.drop m, p x = true) :
    l.filter p = l.drop m := by
  conv_lhs => rw [← List.take_append_drop m l]
  rw [List.filter_append]
  rw [List.filter_eq_nil_iff.mpr (by intro a ha; simp [htake a ha]),
    List.filter_eq_self.mpr hdrop, List.nil_append]

theorem take_drop_keys_disjoint {l : List MemoryEntry} (hnd : KeysNodup l) (m : ℕ) :
    ∀ x ∈ l.drop m, x.key ∉ storeKeys (l.take m) := by
  have hsplit : l.take m ++ l.drop m = l := List.take_append_drop m l
  have hndl : (storeKeys (l.take m) ++ storeKeys (l.drop m)).Nodup := by
    have heq : storeKeys (l.take m) ++ storeKeys (l.drop m) = storeKeys l := by
      rw [storeKeys, storeKeys, storeKeys, ← List.map_append, hsplit]
    rw [heq]; exact hnd
  intro x hx hmem
  rcases List.nodup_append.mp hndl with ⟨_, _, hd⟩
  exact hd hmem (mem_storeKeys hx)

theorem prune_store_perm_drop {s : StoreEntries} {scope : MemoryScope}
    (hnd : KeysNodup s) (hover : scope_limit scope < s.length) :
    (prune_store s scope).Perm
      ((List.insertionSort evictLe s).drop (s.length - scope_limit scope)) := by
  rw [prune_store_eq_filter hnd hover]
  have h2 : (List.insertionSort evictLe s).filter
      (fun x => decide (x.key ∉
        storeKeys ((List.insertionSort evictLe s).take (s.length - scope_limit scope)))) =
      (List.insertionSort evictLe s).drop (s.length - scope_limit scope) := by
    apply filter_split_drop
    · intro x hx
      simp [mem_storeKeys hx]
    · intro x hx
      simp [take_drop_keys_disjoint (sorted_keysNodup hnd) _ x hx]
  exact h2 ▸ ((List.perm_insertionSort evictLe s).symm.filter _)

theorem prune_store_length_of_over {s : StoreEntries} {scope : MemoryScope}
    (hnd : KeysNodup s) (hover : scope_limit scope < s.length) :
    (prune_store s scope).length = scope_limit scope := by
  rw [(prune_store_perm_drop hnd hover).length_eq, List.length_drop,
    List.length_insertionSort]
  omega

theorem prune_store_length_le {s : StoreEntries} {scope : MemoryScope}
    (hnd : KeysNodup s) : (prune_store s scope).length ≤ scope_limit scope := by
  by_cases h : s.length ≤ scope_limit scope
  · rw [prune_store_of_le h]; exact h
  · rw [prune_store_length_of_over hnd (by omega)]

theorem keysNodup_prune_store {s : StoreEntries} {scope : MemoryScope}
    (hnd : KeysNodup s) : KeysNodup (prune_store s scope) := by
  by_cases h : s.length ≤ scope_limit scope
  · rw [prune_store_of_le h]; exact hnd
  · rw [prune_store_eq_filter hnd (by omega)]
    exact keysNodup_filter hnd _

theorem foldl_storeRemove_sublist (R : List MemoryEntry) :
    ∀ s : StoreEntries, (R.foldl (fun st e => storeRemove e.key st) s).Sublist s := by
  induction R with
  | nil => intro s; exact List.Sublist.refl s
  | cons r R ih =>
    intro s
    rw [List.foldl_cons]
    exact (ih (storeRemove r.key s)).trans (List.eraseP_sublist s)

theorem prune_store_subset {s : StoreEntries} {scope : MemoryScope} :
    ∀ x ∈ prune_store s scope, x ∈ s := by
  by_cases h : s.length ≤ scope_limit scope
  · rw [prune_store_of_le h]
    exact fun x hx => hx
  · rw [prune_store_of_over (by omega)]
    exact fun x hx => (foldl_storeRemove_sublist _ s).mem hx

/-! ## Insert (`storeSet`) lemmas -/

theorem length_storeSet_le (e : MemoryEntry) (s : StoreEntries) :
    (storeSet e s).length ≤ s.length + 1 := by
  unfold storeSet
  split <;> simp

theorem keysNodup_storeSet {s : StoreEntries} (hnd : KeysNodup s) (e : MemoryEntry) :
    KeysNodup (storeSet e s) := by
  unfold storeSet
  split
  case isTrue h =>
    have heq : storeKeys (s.map fun x => if x.key == e.key then e else x) = storeKeys s := by
      unfold storeKeys
      rw [List.map_map]
      apply List.map_congr_left
      intro x _
      by_cases hx : x.key = e.key
      · simp [Function.comp, beq_iff_eq.mpr hx, hx]
      · simp [Function.comp, hx]
    rw [KeysNodup, heq]
    exact hnd
  case isFalse h =>
    rw [KeysNodup, storeKeys, List.map_append, List.nodup_append]
    refine ⟨hnd, List.nodup_singleton _, ?_⟩
    intro k hk hk2
    simp only [List.map_cons, List.map_nil, List.mem_singleton] at hk2
    subst hk2
    rcases List.mem_map.mp hk with ⟨x, hx, hxk⟩
    rw [List.any_eq_true] at h
    exact h ⟨x, hx, by simp [hxk]⟩

theorem find?_storeSet (e : MemoryEntry) (s : StoreEntries) :
    (storeSet e s).find? (·.key == e.key) = some e := by
  by_cases h : s.any (·.key == e.key)
  · rw [storeSet, if_pos h]
    induction s with
    | nil => simp at h
    | cons x t ih =>
      by_cases hx : (x.key == e.key) = true
      · rw [List.map_cons, if_pos hx]
        simp only [List.find?, beq_self_eq_true]
      · have hx' : (x.key == e.key) = false := by simpa using hx
        have ht : t.any (·.key == e.key) := by
          rcases List.any_eq_true.mp h with ⟨y, hy, hyk⟩
          rcases List.mem_cons.mp hy with rfl | hyt
          · exact absurd hyk hx
          · exact List.any_eq_true.mpr ⟨y, hyt, hyk⟩
        rw [List.map_cons, if_neg hx]
        simp only [List.find?, hx']
        exact ih ht
  · rw [storeSet, if_neg h]
    rw [List.find?_append]
    have hnone : s.find? (·.key == e.key) = none :=
      List.find?_eq_none.mpr (fun x hx hpx => h (List.any_eq_true.mpr ⟨x, hx, hpx⟩))
    simp only [hnone, Option.none_or, List.find?, beq_self_eq_true]

theorem storeSet_mem_of_ne {e x : MemoryEntry} {s : StoreEntries}
    (hx : x ∈ storeSet e s) (hne : x.key ≠ e.key) : x ∈ s := by
  unfold storeSet at hx
  split at hx
  · rcases List.mem_map.mp hx with ⟨y, hy, hyx⟩
    by_cases hyk : (y.key == e.key) = true
    · rw [if_pos hyk] at hyx
      exact absurd (hyx ▸ rfl : x.key = e.key) hne
    · rw [if_neg hyk] at hyx
      exact hyx ▸ hy
  · rcases List.mem_append.mp hx with hxs | hxe
    · exact hxs
    · simp only [List.mem_singleton] at hxe
      exact absurd (hxe ▸ rfl : x.key = e.key) hne

/-! ## `Memory::set` lemmas -/

theorem memorySet_eq_prune (key value : Str) (scope : MemoryScope) (sid : Option Str)
    (now : ℤ) (s : StoreEntries) :
    ∃ entry : MemoryEntry,
      memorySet key value scope sid now s = prune_store (storeSet entry s) scope ∧
      entry.key = key ∧ entry.value = value ∧ entry.scope = scope ∧
      entry.scope_id = sid ∧ entry.created_at = now ∧ entry.updated_at = now ∧
      entry.expires_at = none ∧ entry.importance = 1 ∧
      entry.category = (match storeGet s key now with
                        | some existing => existing.category
                        | none => none) := by
  cases hg : storeGet s key now with
  | none =>
    refine ⟨MemoryEntry.new key value scope sid now,
      ?_, rfl, rfl, rfl, rfl, rfl, rfl, rfl, rfl, rfl⟩
    unfold memorySet
    rw [hg]
  | some existing =>
    refine ⟨{ MemoryEntry.new key value scope sid now with category := existing.category },
      ?_, rfl, rfl, rfl, rfl, rfl, rfl, rfl, rfl, rfl⟩
    unfold memorySet
    rw [hg]

theorem keysNodup_memorySet {s : StoreEntries} (hnd : KeysNodup s)
    (key value : Str) (scope : MemoryScope) (sid : Option Str) (now : ℤ) :
    KeysNodup (memorySet key value scope sid now s) := by
  rcases memorySet_eq_prune key value scope sid now s with ⟨entry, heq, _⟩
  rw [heq]
  exact keysNodup_prune_store (keysNodup_storeSet hnd entry)

theorem memorySet_length_le {s : StoreEntries} (hnd : KeysNodup s)
    (key value : Str) (scope : MemoryScope) (sid : Option Str) (now : ℤ) :
    (memorySet key value scope sid now s).length ≤ scope_limit scope := by
  rcases memorySet_eq_prune key value scope sid now s with ⟨entry, heq, _⟩
  rw [heq]
  exact prune_store_length_le (keysNodup_storeSet hnd entry)

theorem is_expired_none {e : MemoryEntry} (h : e.expires_at = none) (now : ℤ) :
    e.is_expired now = false := by
  unfold MemoryEntry.is_expired
  rw [h]

theorem find?_storeSet_key (e : MemoryEntry) (s : StoreEntries) (k : Str)
    (hk : e.key = k) : (storeSet e s).find? (·.key == k) = some e :=
  hk ▸ find?_storeSet e s

/-! ## C1: set-then-get round trip -/

/-- **C1 (amended)**: a successful `set(key, value, scope, scope_id)` followed
immediately by `get(key, scope, scope_id)` returns an entry whose value is the value
that was set, provided the store held strictly fewer entries than its scope's cap when
the `set` occurred (so the write cannot push the store over the cap and trigger an
eviction that could remove the freshly written entry). -/
theorem c1_set_then_get_roundtrip (key value : Str) (scope : MemoryScope)
    (sid : Option Str) (now : ℤ) (s : StoreEntries)
    (h : s.length < scope_limit scope) :
    (memoryGet key now (memorySet key value scope sid now s)).map (·.value) =
      some value := by
  rcases memorySet_eq_prune key value scope sid now s with
    ⟨entry, heq, hkey, hval, -, -, -, -, hexp, -, -⟩
  rw [heq, prune_store_of_le (le_trans (length_storeSet_le entry s) (by omega))]
  unfold memoryGet storeGet
  rw [find?_storeSet_key entry s key hkey]
  simp [Option.filter, is_expired_none hexp, hval]

/-- The generic eviction scenario refuting C1 as universally stated: if the key is
fresh, the store is exactly at its cap, and every stored entry outscores the new entry
(importance promoted by prior compactions), then the `set` itself evicts the new entry
and the immediate `get` returns nothing. -/
theorem memorySet_evicts_lowest (key value : Str) (scope : MemoryScope) (sid : Option Str)
    (now : ℤ) (s : StoreEntries)
    (hnotin : ∀ x ∈ s, x.key ≠ key)
    (hnd : KeysNodup s)
    (hover : scope_limit scope < s.length + 1)
    (hmin : ∀ x ∈ s, evictScore (MemoryEntry.new key value scope sid now) < evictScore x) :
    memoryGet key now (memorySet key value scope sid now s) = none := by
  rcases memorySet_eq_prune key value scope sid now s with
    ⟨entry, heq, hkey, -, -, -, hcreat, hupd, -, himp, -⟩
  have hscore : evictScore entry = evictScore (MemoryEntry.new key value scope sid now) := by
    simp [evictScore, himp, hupd, MemoryEntry.new]
  have hany : s.any (·.key == entry.key) = false := by
    apply List.any_eq_false.mpr
    intro x hx
    simp only [beq_iff_eq, hkey]
    exact hnotin x hx
  have hset : storeSet entry s = s ++ [entry] := by
    rw [storeSet, if_neg (by simp [hany])]
  have hnd' : KeysNodup (storeSet entry s) := keysNodup_storeSet hnd entry
  have hlen' : (storeSet entry s).length = s.length + 1 := by rw [hset]; simp
  have hover' : scope_limit scope < (storeSet entry s).length := by omega
  -- the freshly inserted entry is the strict minimum, so it heads the sorted order
  have hmem_entry : entry ∈ storeSet entry s := by rw [hset]; simp
  have hhead : ∃ rest, List.insertionSort evictLe (storeSet entry s) = entry :: rest := by
    cases hsorted : List.insertionSort evictLe (storeSet entry s) with
    | nil =>
      have := congrArg List.length hsorted
      rw [List.length_insertionSort, hlen'] at this
      simp at this
    | cons y rest =>
      have hy : y ∈ storeSet entry s := by
        have : y ∈ List.insertionSort evictLe (storeSet entry s) := by rw [hsorted]; simp
        exact ((List.perm_insertionSort evictLe _).mem_iff).mp this
      by_cases hye : y = entry
      · subst hye
        exact ⟨rest, rfl⟩
      · exfalso
        have hys : y ∈ s := by
          rw [hset] at hy
          rcases List.mem_append.mp hy with hy1 | hy2
          · exact hy1
          · simp at hy2; exact absurd hy2 hye
        have h1 : evictScore entry < evictScore y := by
          rw [hscore]; exact hmin y hys
        have hentry_mem : entry ∈ y :: rest := by
          rw [← hsorted]
          exact ((List.perm_insertionSort evictLe _).mem_iff).mpr hmem_entry
        have h2 : evictLe y entry := by
          rcases List.mem_cons.mp hentry_mem with heq2 | htail
          · exact absurd heq2.symm hye
          · have hs := List.sorted_insertionSort evictLe (storeSet entry s)
            rw [hsorted] at hs
            exact (List.sorted_cons.mp hs).1 entry htail
        exact absurd h2 (by simp only [evictLe]; push_neg; exact h1)
  rcases hhead with ⟨rest, hsorted⟩
  have hentry_take : entry ∈ (List.insertionSort evictLe (storeSet entry s)).take
      ((storeSet entry s).length - scope_limit scope) := by
    rw [hsorted]
    have hm : 1 ≤ (storeSet entry s).length - scope_limit scope := by omega
    cases hmc : (storeSet entry s).length - scope_limit scope with
    | zero => omega
    | succ m => simp [List.take_cons]
  have hnokey : ∀ x ∈ memorySet key value scope sid now s, x.key ≠ key := by
    intro x hx
    rw [heq, prune_store_eq_filter hnd' hover'] at hx
    rcases List.mem_filter.mp hx with ⟨hxs, hxp⟩
    intro hxkey
    rw [hset] at hxs
    rcases List.mem_append.mp hxs with hx1 | hx2
    · exact hnotin x hx1 hxkey
    · simp only [List.mem_singleton] at hx2
      subst hx2
      rw [decide_eq_true_iff] at hxp
      exact hxp (hkey ▸ mem_storeKeys hentry_take)
  have hfind : (memorySet key value scope sid now s).find? (·.key == key) = none :=
    List.find?_eq_none.mpr (fun x hx hpx => hnokey x hx (by simpa using hpx))
  unfold memoryGet storeGet
  rw [hfind]
  rfl

theorem keysNodup_rangeStore (n : ℕ) : KeysNodup ((List.range n).map promotedEntry) := by
  unfold KeysNodup storeKeys
  rw [List.map_map]
  have heq : ((fun e : MemoryEntry => e.key) ∘ promotedEntry) =
      fun i => List.replicate i 'a' := rfl
  rw [heq]
  refine List.Nodup.map ?_ (List.nodup_range _)
  intro a b hab
  simpa using congrArg List.length hab

/-- **C1 (counterexample)**: the claim fails as universally stated.  With the Task
store at its cap of 750 entries, all promoted to importance 2.0, a successful
`set` of a fresh 751st key is immediately followed by a `get` that returns nothing:
the capacity pruning that runs inside `set` evicts the just-written entry itself,
because its eviction score (importance 1.0) is strictly the lowest. -/
theorem c1_roundtrip_counterexample :
    memoryGet (List.replicate 750 'a') 1000000
      (memorySet (List.replicate 750 'a') ['v'] MemoryScope.Task (some ['t']) 1000000
        fullTaskStore) = none := by
  apply memorySet_evicts_lowest
  · intro x hx
    rcases List.mem_map.mp hx with ⟨i, hi, rfl⟩
    have hi' : i < 750 := List.mem_range.mp hi
    intro hk
    have hlen := congrArg List.length hk
    simp only [promotedEntry, List.length_replicate] at hlen
    omega
  · exact keysNodup_rangeStore 750
  · simp [fullTaskStore, scope_limit, TASK_LIMIT]
  · intro x hx
    rcases List.mem_map.mp hx with ⟨i, hi, rfl⟩
    simp only [evictScore, promotedEntry, MemoryEntry.new]
    have h0 : (0 : ℚ) ≤ ((i : ℤ) : ℚ) / 1000000000000 := by positivity
    have h1 : (1 : ℚ) * 10 + (1000000 : ℤ) / 1000000000000 < 2 * 10 := by norm_num
    push_cast at h0 h1 ⊢
    linarith

/-- **C2**: after any non-empty sequence of `set` calls into one (well-formed) store,
the store's entry count is at most its scope's cap (2000 for Global, 1500 for Agent,
1500 for Team, 750 for Task): every `set` that pushes the store over the cap prunes it
back to the cap before the document is saved. -/
theorem c2_capacity_invariant (ops : List (Str × Str × ℤ)) (scope : MemoryScope)
    (sid : Option Str) (s : StoreEntries) (hnd : KeysNodup s) (hne : ops ≠ []) :
    (applySets ops scope sid s).length ≤ scope_limit scope := by
  have aux : ∀ (ops' : List (Str × Str × ℤ)) (s' : StoreEntries), KeysNodup s' →
      s'.length ≤ scope_limit scope →
      (applySets ops' scope sid s').length ≤ scope_limit scope := by
    intro ops'
    induction ops' with
    | nil => intro s' _ h; exact h
    | cons op rest ih =>
      intro s' hnd' _
      rw [applySets, List.foldl_cons]
      exact ih _ (keysNodup_memorySet hnd' _ _ _ _ _) (memorySet_length_le hnd' _ _ _ _ _)
  cases ops with
  | nil => exact absurd rfl hne
  | cons op rest =>
    rw [applySets, List.foldl_cons]
    exact aux rest _ (keysNodup_memorySet hnd _ _ _ _ _) (memorySet_length_le hnd _ _ _ _ _)

/-- Witness for C2 at a concrete input: one `set` into the empty Global store. -/
theorem c2_capacity_invariant_witness :
    (applySets [(['k'], ['v'], 0)] MemoryScope.Global none []).length ≤
      scope_limit MemoryScope.Global :=
  c2_capacity_invariant [(['k'], ['v'], 0)] MemoryScope.Global none []
    (by decide) (by decide)

/-- **C3**: whenever a (well-formed) store holds more entries than its scope's cap, the
eviction pass removes exactly `count − cap` entries — the pruned store has exactly `cap`
entries and the original store is a permutation of `removed ++ pruned` — and the removed
entries are exactly those with the lowest eviction score
`importance * 10 + updated_at / 1e12`: every removed entry's score is at most every
kept entry's score. -/
theorem c3_eviction_correctness {s : StoreEntries} {scope : MemoryScope}
    (hnd : KeysNodup s) (hover : scope_limit scope < s.length) :
    ∃ removed : StoreEntries,
      removed.length = s.length - scope_limit scope ∧
      s.Perm (removed ++ prune_store s scope) ∧
      (prune_store s scope).length = scope_limit scope ∧
      ∀ r ∈ removed, ∀ k ∈ prune_store s scope, evictScore r ≤ evictScore k := by
  refine ⟨(List.insertionSort evictLe s).take (s.length - scope_limit scope),
    ?_, ?_, prune_store_length_of_over hnd hover, ?_⟩
  · rw [List.length_take, List.length_insertionSort]
    omega
  · have hsplit := List.take_append_drop (s.length - scope_limit scope)
      (List.insertionSort evictLe s)
    have hperm : s.Perm (List.insertionSort evictLe s) :=
      (List.perm_insertionSort _ _).symm
    have h1 : (List.insertionSort evictLe s).Perm
        ((List.insertionSort evictLe s).take (s.length - scope_limit scope) ++
          prune_store s scope) := by
      conv_lhs => rw [← hsplit]
      exact List.Perm.append_left _ (prune_store_perm_drop hnd hover).symm
    exact hperm.trans h1
  · intro r hr k hk
    have hkd : k ∈ (List.insertionSort evictLe s).drop (s.length - scope_limit scope) :=
      ((prune_store_perm_drop hnd hover).mem_iff).mp hk
    exact (List.sorted_insertionSort evictLe s).rel_of_mem_take_of_mem_drop hr hkd

/-- Witness for C3 at a concrete input: a Task store one entry over its cap. -/
theorem c3_eviction_correctness_witness :
    ∃ removed : StoreEntries,
      removed.length = overfullTaskStore.length - scope_limit MemoryScope.Task ∧
      overfullTaskStore.Perm (removed ++ prune_store overfullTaskStore MemoryScope.Task) ∧
      (prune_store overfullTaskStore MemoryScope.Task).length =
        scope_limit MemoryScope.Task ∧
      ∀ r ∈ removed, ∀ k ∈ prune_store overfullTaskStore MemoryScope.Task,
        evictScore r ≤ evictScore k :=
  c3_eviction_correctness (keysNodup_rangeStore 751)
    (by simp [overfullTaskStore, scope_limit, TASK_LIMIT])

/-- Witness for the amended C1 at a concrete input: a `set` into the empty Global
store, immediately read back. -/
theorem c1_set_then_get_roundtrip_witness :
    (memoryGet ['k'] 5 (memorySet ['k'] ['v'] MemoryScope.Global none 5 [])).map
      (·.value) = some ['v'] :=
  c1_set_then_get_roundtrip ['k'] ['v'] MemoryScope.Global none 5 [] (by decide)

/-! ## C10: set on an existing key rebuilds the entry -/

theorem new_key_eq (key value : Str) (scope : MemoryScope) (sid : Option Str)
    (now : ℤ) : (MemoryEntry.new key value scope sid now).key = key := rfl

theorem new_withcat_key_eq (key value : Str) (scope : MemoryScope) (sid : Option Str)
    (now : ℤ) (c : Option Str) :
    ({ MemoryEntry.new key value scope sid now with category := c } : MemoryEntry).key =
      key := rfl

/-- **C10**: when `set(key, value, scope, scope_id)` finds the key already present, the
resulting entry is rebuilt from scratch — importance 1.0, no expiry, `created_at` and
`updated_at` both the current time — regardless of the previous entry's values; the
previous `category` is copied forward only when the previous entry was unexpired at the
time of the `set` (an expired predecessor's category is dropped).  (The store is assumed
within its cap, so the rewritten entry is not itself evicted.) -/
theorem c10_set_rebuilds_existing (key value : Str) (scope : MemoryScope)
    (sid : Option Str) (now : ℤ) (s : StoreEntries) (old : MemoryEntry)
    (hfind : s.find? (·.key == key) = some old)
    (hlen : s.length ≤ scope_limit scope) :
    memoryGet key now (memorySet key value scope sid now s) =
      some { key := key, value := value, scope := scope, scope_id := sid
             category := if old.is_expired now then none else old.category
             created_at := now, updated_at := now, expires_at := none
             importance := 1 } := by
  have hany : s.any (·.key == key) = true :=
    List.any_eq_true.mpr ⟨old, List.mem_of_find?_eq_some hfind,
      @List.find?_some _ (fun x => x.key == key) old s hfind⟩
  have hget : storeGet s key now =
      if old.is_expired now then none else some old := by
    rw [storeGet, hfind]
    by_cases hexp : old.is_expired now
    · simp [Option.filter, hexp]
    · simp [Option.filter, hexp]
  by_cases hexp : old.is_expired now
  · have hentry : memorySet key value scope sid now s =
        prune_store (storeSet (MemoryEntry.new key value scope sid now) s) scope := by
      unfold memorySet
      rw [hget, if_pos hexp]
    rw [hentry, if_pos hexp]
    have hsetlen : (storeSet (MemoryEntry.new key value scope sid now) s).length =
        s.length := by
      rw [storeSet, new_key_eq, if_pos hany]
      exact List.length_map s _
    rw [prune_store_of_le (by omega)]
    unfold memoryGet storeGet
    rw [find?_storeSet_key _ s key rfl]
    rfl
  · have hentry : memorySet key value scope sid now s =
        prune_store (storeSet
          { MemoryEntry.new key value scope sid now with category := old.category } s)
          scope := by
      unfold memorySet
      rw [hget, if_neg hexp]
    rw [hentry, if_neg hexp]
    have hsetlen : (storeSet
        { MemoryEntry.new key value scope sid now with category := old.category }
        s).length = s.length := by
      rw [storeSet, new_withcat_key_eq, if_pos hany]
      exact List.length_map s _
    rw [prune_store_of_le (by omega)]
    unfold memoryGet storeGet
    rw [find?_storeSet_key _ s key rfl]
    rfl

/-- Witness for C10 at a concrete input: overwriting an existing unexpired entry that
carried a category and importance 2.0. -/
theorem c10_set_rebuilds_existing_witness :
    memoryGet ['k'] 9
      (memorySet ['k'] ['w'] MemoryScope.Global none 9
        [{ key := ['k'], value := ['v'], scope := MemoryScope.Global, scope_id := none
           category := some ['c'], created_at := 1, updated_at := 1
           expires_at := none, importance := 2 }]) =
      some { key := ['k'], value := ['w'], scope := MemoryScope.Global, scope_id := none
             category := some ['c']
             created_at := 9, updated_at := 9, expires_at := none, importance := 1 } := by
  have h := c10_set_rebuilds_existing ['k'] ['w'] MemoryScope.Global none 9
    [{ key := ['k'], value := ['v'], scope := MemoryScope.Global, scope_id := none
       category := some ['c'], created_at := 1, updated_at := 1
       expires_at := none, importance := 2 }]
    { key := ['k'], value := ['v'], scope := MemoryScope.Global, scope_id := none
      category := some ['c'], created_at := 1, updated_at := 1
      expires_at := none, importance := 2 }
    (by decide) (by decide)
  simpa [MemoryEntry.is_expired] using h

/-! ## Fold invariants and importance monotonicity of the compactor -/

theorem foldl_preserves {α β : Type} (P : β → Prop) (f : β → α → β) :
    ∀ (l : List α) (init : β), P init → (∀ b a, P b → P (f b a)) → P (l.foldl f init) := by
  intro l
  induction l with
  | nil => intro init h0 _; exact h0
  | cons x t ih =>
    intro init h0 hstep
    rw [List.foldl_cons]
    exact ih (f init x) (hstep init x h0) hstep

theorem storeMono_refl (s : StoreEntries) : StoreMono s s :=
  fun r hr => ⟨r, hr, rfl, le_refl _⟩

theorem storeMono_trans {a b c : StoreEntries} (h1 : StoreMono a b) (h2 : StoreMono b c) :
    StoreMono a c := by
  intro r hr
  rcases h2 r hr with ⟨x, hx, hk, hi⟩
  rcases h1 x hx with ⟨y, hy, hk2, hi2⟩
  exact ⟨y, hy, hk.trans hk2, le_trans hi2 hi⟩

theorem storeMono_of_subset {a b : StoreEntries} (h : ∀ x ∈ b, x ∈ a) : StoreMono a b :=
  fun r hr => ⟨r, h r hr, rfl, le_refl _⟩

theorem storeMono_map {s : StoreEntries} {g : MemoryEntry → MemoryEntry}
    (hg : ∀ e, (g e).key = e.key ∧ e.importance ≤ (g e).importance) :
    StoreMono s (s.map g) := by
  intro r hr
  rcases List.mem_map.mp hr with ⟨x, hx, rfl⟩
  exact ⟨x, hx, (hg x).1, (hg x).2⟩

theorem mergeStep_mono (ki kj : Str) (st : StoreEntries × ℕ) :
    StoreMono st.1 (mergeStep ki kj st).1 := by
  unfold mergeStep
  cases hfi : st.1.find? (·.key == ki) with
  | none => exact storeMono_refl _
  | some a =>
    cases hfj : st.1.find? (·.key == kj) with
    | none => exact storeMono_refl _
    | some b =>
      dsimp only
      by_cases hc : mergeCond a b
      · rw [if_pos hc]
        intro r hr
        have hr' : r ∈ st.1.map (fun e =>
            if e.key == ki then
              { e with updated_at := max e.updated_at b.updated_at,
                       importance := max e.importance b.importance + 1/5 }
            else e) := (List.eraseP_sublist _).mem hr
        rcases List.mem_map.mp hr' with ⟨x, hx, rfl⟩
        by_cases hxk : (x.key == ki) = true
        · rw [if_pos hxk]
          refine ⟨x, hx, rfl, ?_⟩
          have h1 : x.importance ≤ max x.importance b.importance := le_max_left _ _
          have h2 : (0 : ℚ) ≤ 1/5 := by norm_num
          simp only []
          linarith
        · rw [if_neg hxk]
          exact ⟨x, hx, rfl, le_refl _⟩
      · rw [if_neg hc]
        exact storeMono_refl _

theorem mergePassIdx_mono (keys : List Str) (st : StoreEntries × ℕ) :
    StoreMono st.1 (mergePassIdx keys st).1 := by
  unfold mergePassIdx
  apply foldl_preserves (fun b => StoreMono st.1 b.1) _ _ st (storeMono_refl _)
  intro b i hb
  apply foldl_preserves (fun b2 => StoreMono st.1 b2.1) _ _ b hb
  intro b2 j hb2
  exact storeMono_trans hb2 (mergeStep_mono _ _ b2)

theorem memoryCompact_mono_cleaned (scope : MemoryScope) (s : StoreEntries) (now : ℤ) :
    StoreMono (storeCleanup s now).1 (memoryCompact scope s now).1 := by
  show StoreMono (storeCleanup s now).1
    (prune_store ((mergePassIdx (sortedKeys (storeCleanup s now).1)
      ((storeCleanup s now).1, 0)).1.map _) scope)
  refine storeMono_trans (storeMono_trans
    (mergePassIdx_mono (sortedKeys (storeCleanup s now).1) ((storeCleanup s now).1, 0))
    (storeMono_map ?_)) (storeMono_of_subset (fun x hx => prune_store_subset x hx))
  intro e
  dsimp only
  constructor
  · split <;> rfl
  · split
    · dsimp only
      linarith
    · exact le_refl _

theorem memoryCompact_mono (scope : MemoryScope) (s : StoreEntries) (now : ℤ) :
    StoreMono s (memoryCompact scope s now).1 := by
  refine storeMono_trans ?_ (memoryCompact_mono_cleaned scope s now)
  exact storeMono_of_subset (fun x hx => (List.filter_sublist s).mem hx)

/-! ## C4: importance monotonicity -/

/-- **C4 (counterexample)**: the claim fails as stated — `set` on an existing key is a
public operation that leaves the key present with a *lower* importance.  Overwriting the
promoted entry (importance 2.0) rebuilds it at importance 1.0. -/
theorem c4_importance_counterexample :
    (memoryGet ['k'] 7 (memorySet ['k'] ['v'] MemoryScope.Global none 7
      promotedGlobalStore)).map (·.importance) = some 1 ∧
    promotedGlobalStore.map (·.importance) = [2] := by
  constructor
  · decide
  · decide

/-- **C4 (amended)**: importance is only ever increased by `compact`'s merge and
promotion passes — every entry surviving a `compact` descends from an entry of the
original store with the same key and no larger importance — and no other operation
lowers a surviving entry's importance: `set` leaves every entry under a different key
untouched (an entry with the written key is rebuilt afresh, and entries can disappear
entirely through eviction), and `delete` only removes. -/
theorem c4_importance_monotone (scope : MemoryScope) (s : StoreEntries) (now : ℤ)
    (key value : Str) (sid : Option Str) :
    StoreMono s (memoryCompact scope s now).1 ∧
    (∀ r ∈ memorySet key value scope sid now s, r.key ≠ key → r ∈ s) ∧
    (∀ r ∈ memoryDelete key s, r ∈ s) := by
  refine ⟨memoryCompact_mono scope s now, ?_, ?_⟩
  · intro r hr hrk
    rcases memorySet_eq_prune key value scope sid now s with ⟨entry, heq, hkey, -⟩
    rw [heq] at hr
    have hr' : r ∈ storeSet entry s := prune_store_subset r hr
    exact storeSet_mem_of_ne hr' (by rw [hkey]; exact hrk)
  · intro r hr
    exact (List.eraseP_sublist s).mem hr

/-! ## C5: expiry semantics -/

theorem is_expired_of_past {e : MemoryEntry} {t now : ℤ} (hexp : e.expires_at = some t)
    (ht : t < now) : e.is_expired now = true := by
  unfold MemoryEntry.is_expired
  rw [hexp]
  simpa using ht

theorem countP_not_expired (s : StoreEntries) (now : ℤ) :
    s.length - (s.filter (fun e => !e.is_expired now)).length =
      s.countP (fun e => e.is_expired now) := by
  have h1 : (s.filter (fun e => !e.is_expired now)).length =
      s.countP (fun e => !e.is_expired now) :=
    (List.countP_eq_length_filter _ _).symm
  have h2 := List.length_eq_countP_add_countP (fun e => e.is_expired now) s
  have h3 : s.countP (fun a => decide ¬(a.is_expired now = true)) =
      s.countP (fun e => !e.is_expired now) := by
    apply List.countP_congr
    intro a _
    cases h : a.is_expired now <;> simp [h]
  omega

/-- **C5**: an entry whose `expires_at` is set and strictly in the past is invisible to
`get`, `list`, `search` and `relevant` even while still physically present in the
document; `compact`'s expiry pass physically removes every expired entry, counting each
removal in `expired_removed`, so the post-compact store — and hence a post-compact
`list` — does not contain it. -/
theorem c5_expiry (s : StoreEntries) (e : MemoryEntry) (t now : ℤ) (q : Str)
    (scope : MemoryScope) (sid : Option Str) (limit : ℕ)
    (hnd : KeysNodup s) (he : e ∈ s) (hexp : e.expires_at = some t) (ht : t < now) :
    memoryGet e.key now s = none ∧
    e ∉ list_by_scope s scope sid now ∧
    e ∉ storeSearch s q now ∧
    (∀ r ∈ memoryRelevant q s now limit, r.key ≠ e.key) ∧
    (storeCleanup s now).2 = s.countP (fun x => x.is_expired now) ∧
    e ∉ (storeCleanup s now).1 ∧
    (memoryCompact scope s now).2.expired_removed =
      s.countP (fun x => x.is_expired now) ∧
    (∀ r ∈ (memoryCompact scope s now).1, r.key ≠ e.key) ∧
    (∀ r ∈ list_by_scope (memoryCompact scope s now).1 scope sid now,
      r.key ≠ e.key) := by
  have hee : e.is_expired now = true := is_expired_of_past hexp ht
  have hget : memoryGet e.key now s = none := by
    unfold memoryGet storeGet
    rw [find?_key_eq_some_of_nodup hnd he]
    simp [Option.filter, hee]
  have hclean : e ∉ (storeCleanup s now).1 := by
    intro hmem
    rcases List.mem_filter.mp hmem with ⟨-, hp⟩
    simp [hee] at hp
  have hcompact_keys : ∀ r ∈ (memoryCompact scope s now).1, r.key ≠ e.key := by
    intro r hr hkey
    rcases memoryCompact_mono_cleaned scope s now r hr with ⟨x, hx, hxk, -⟩
    have hxs : x ∈ s := (List.filter_sublist s).mem hx
    have hxe : x = e := key_inj_of_nodup hnd hxs he (by rw [← hxk, ← hkey])
    subst hxe
    exact hclean hx
  refine ⟨hget, ?_, ?_, ?_, countP_not_expired s now, hclean,
    countP_not_expired s now, hcompact_keys, ?_⟩
  · intro hmem
    rcases List.mem_filter.mp hmem with ⟨-, hp⟩
    simp [hee] at hp
  · intro hmem
    rcases List.mem_filter.mp hmem with ⟨-, hp⟩
    simp [hee] at hp
  · intro r hr hkey
    unfold memoryRelevant at hr
    have hr1 : r ∈ ((s.filter (fun x => !x.is_expired now)).map
        (fun x => x.withScore (relevantScore (lowerStr q) x))).insertionSort scoreDesc :=
      (List.take_sublist _ _).mem hr
    have hr2 : r ∈ (s.filter (fun x => !x.is_expired now)).map
        (fun x => x.withScore (relevantScore (lowerStr q) x)) :=
      ((List.perm_insertionSort _ _).mem_iff).mp hr1
    rcases List.mem_map.mp hr2 with ⟨c, hc, rfl⟩
    rcases List.mem_filter.mp hc with ⟨hcs, hcp⟩
    have hce : c = e := key_inj_of_nodup hnd hcs he hkey
    subst hce
    simp [hee] at hcp
  · intro r hr
    exact hcompact_keys r ((List.filter_sublist _).mem hr)

/-- Witness for C5 at a concrete input: a Global store holding one entry that expired
at time 1, read at time 5. -/
theorem c5_expiry_witness :
    let e : MemoryEntry :=
      { key := ['k'], value := ['v'], scope := MemoryScope.Global, scope_id := none
        category := none, created_at := 0, updated_at := 0, expires_at := some 1
        importance := 1 }
    memoryGet e.key 5 [e] = none ∧
    e ∉ list_by_scope [e] MemoryScope.Global none 5 ∧
    e ∉ storeSearch [e] ['v'] 5 ∧
    (∀ r ∈ memoryRelevant ['v'] [e] 5 3, r.key ≠ e.key) ∧
    (storeCleanup [e] 5).2 = [e].countP (fun x => x.is_expired 5) ∧
    e ∉ (storeCleanup [e] 5).1 ∧
    (memoryCompact MemoryScope.Global [e] 5).2.expired_removed =
      [e].countP (fun x => x.is_expired 5) ∧
    (∀ r ∈ (memoryCompact MemoryScope.Global [e] 5).1, r.key ≠ e.key) ∧
    (∀ r ∈ list_by_scope (memoryCompact MemoryScope.Global [e] 5).1
        MemoryScope.Global none 5, r.key ≠ e.key) :=
  c5_expiry _ _ 1 5 ['v'] MemoryScope.Global none 3 (by decide)
    (List.mem_singleton.mpr rfl) rfl (by decide)

/-! ## C9: lock acquisition protocol -/

theorem wrapSub_eq_sub {now mtime : ℕ} (hnow : now < 2 ^ 64) (hmt : mtime ≤ now) :
    wrapSub now mtime = now - mtime := by
  unfold wrapSub
  have h1 : now % 2 ^ 64 = now := Nat.mod_eq_of_lt hnow
  have h2 : mtime % 2 ^ 64 = mtime := Nat.mod_eq_of_lt (lt_of_le_of_lt hmt hnow)
  rw [h1, h2]
  omega

/-- **C9**: `acquire(path)` fails with the locked error — leaving the marker untouched,
with no blocking or retry — exactly when the marker exists and its modification age is
strictly below 5000 ms; a marker at least that old is deleted and replaced (the lock is
taken, the marker freshly written at `now`); and `with_lock` deletes the marker when the
handle drops, on the wrapped function's success and error paths alike, forwarding the
function's result.  (Sane-clock hypotheses: times fit in `u64` and the marker is not
from the future.) -/
theorem c9_lock_protocol (now mtime : ℕ) {ε α : Type} (f : Except ε α)
    (hnow : now < 2 ^ 64) (hmt : mtime ≤ now) :
    (acquire_lock now (some mtime) = .locked ↔ now - mtime < LOCK_TIMEOUT_MS) ∧
    (LOCK_TIMEOUT_MS ≤ now - mtime →
      acquire_lock now (some mtime) = .acquired (some now)) ∧
    acquire_lock now none = .acquired (some now) ∧
    (now - mtime < LOCK_TIMEOUT_MS →
      with_lock now (some mtime) f = (.error none, some mtime)) ∧
    (LOCK_TIMEOUT_MS ≤ now - mtime →
      with_lock now (some mtime) f = (f.mapError some, none)) ∧
    with_lock now none f = (f.mapError some, none) := by
  have hage : wrapSub now mtime = now - mtime := wrapSub_eq_sub hnow hmt
  refine ⟨?_, ?_, rfl, ?_, ?_, rfl⟩
  · constructor
    · intro h
      by_contra hlt
      unfold acquire_lock at h
      dsimp only at h
      rw [hage, if_neg hlt] at h
      cases h
    · intro h
      unfold acquire_lock
      dsimp only
      rw [hage, if_pos h]
  · intro h
    unfold acquire_lock
    dsimp only
    rw [hage, if_neg (by omega)]
  · intro h
    unfold with_lock acquire_lock
    dsimp only
    rw [hage, if_pos h]
  · intro h
    unfold with_lock acquire_lock
    dsimp only
    rw [hage, if_neg (by omega)]

/-- Witness for C9 at concrete inputs: a 6-second-old marker is reclaimed; the
function's result is forwarded and the marker deleted. -/
theorem c9_lock_protocol_witness :
    (acquire_lock 6000 (some 0) = .locked ↔ 6000 - 0 < LOCK_TIMEOUT_MS) ∧
    (LOCK_TIMEOUT_MS ≤ 6000 - 0 →
      acquire_lock 6000 (some 0) = .acquired (some 6000)) ∧
    acquire_lock 6000 none = .acquired (some 6000) ∧
    (6000 - 0 < LOCK_TIMEOUT_MS →
      with_lock 6000 (some 0) (Except.ok true : Except Unit Bool) =
        (.error none, some 0)) ∧
    (LOCK_TIMEOUT_MS ≤ 6000 - 0 →
      with_lock 6000 (some 0) (Except.ok true : Except Unit Bool) =
        ((Except.ok true : Except Unit Bool).mapError some, none)) ∧
    with_lock 6000 none (Except.ok true : Except Unit Bool) =
      ((Except.ok true : Except Unit Bool).mapError some, none) :=
  c9_lock_protocol 6000 0 (Except.ok true) (by norm_num) (by norm_num)

/-! ## C6: the relevance ranker matches its specification -/

theorem lowerStr_ne_nil {query : Str} (hq : query ≠ []) : lowerStr query ≠ [] := by
  cases query with
  | nil => exact absurd rfl hq
  | cons c t => simp [lowerStr]

theorem relevantScore_eq_claimScore (query : Str) (e : MemoryEntry) (hq : query ≠ []) :
    relevantScore (lowerStr query) e = claimScore query e := by
  simp only [relevantScore, claimScore]
  rw [if_neg (lowerStr_ne_nil hq)]
  ring

theorem orderedInsert_map {α β : Type} (r : α → α → Prop) (r' : β → β → Prop)
    [DecidableRel r] [DecidableRel r'] (f : α → β)
    (hrel : ∀ a b, r' (f a) (f b) ↔ r a b) (a : α) (l : List α) :
    (l.map f).orderedInsert r' (f a) = (l.orderedInsert r a).map f := by
  induction l with
  | nil => rfl
  | cons b t ih =>
    simp only [List.map_cons, List.orderedInsert]
    by_cases h : r a b
    · rw [if_pos ((hrel a b).mpr h), if_pos h, List.map_cons, List.map_cons]
    · rw [if_neg (fun hc => h ((hrel a b).mp hc)), if_neg h, List.map_cons, ih]

theorem insertionSort_map {α β : Type} (r : α → α → Prop) (r' : β → β → Prop)
    [DecidableRel r] [DecidableRel r'] (f : α → β)
    (hrel : ∀ a b, r' (f a) (f b) ↔ r a b) (l : List α) :
    (l.map f).insertionSort r' = (l.insertionSort r).map f := by
  induction l with
  | nil => rfl
  | cons a t ih =>
    simp only [List.map_cons, List.insertionSort]
    rw [ih, orderedInsert_map r r' f hrel]

/-- **C6**: for every non-empty query, `relevant` returns exactly what the spec's
sentence describes — each unexpired candidate scored as stored importance, plus 4.0 for
a lowercased full-query substring hit on key or value, plus 0.8 per whitespace query
token of byte length at least 3 hitting key or value, plus 3.0 times the cosine
similarity of the 64-dimensional hashed bag-of-words vectors of the query and of
`key ++ " " ++ value`, plus `updated_at / 1.5e12` — sorted descending by that score and
truncated to `limit`, the score carried only in the returned clones (the model's
`relevant` consumes the store immutably; no document is written).  The returned list is
sorted descending by the displayed importance. -/
theorem c6_relevant_matches_spec (query : Str) (s : StoreEntries) (now : ℤ)
    (limit : ℕ) (hq : query ≠ []) :
    memoryRelevant query s now limit = claimRelevant query s now limit ∧
    (memoryRelevant query s now limit).Sorted scoreDesc := by
  have hmapof : (fun e : MemoryEntry => e.withScore (relevantScore (lowerStr query) e)) =
      fun e => e.withScore (claimScore query e) :=
    funext fun e => by rw [relevantScore_eq_claimScore query e hq]
  have hrel : ∀ a b : MemoryEntry,
      scoreDesc ((fun e => e.withScore (claimScore query e)) a)
        ((fun e => e.withScore (claimScore query e)) b) ↔ claimDesc query a b := by
    intro a b
    simp [scoreDesc, claimDesc, MemoryEntry.withScore]
  constructor
  · unfold memoryRelevant claimRelevant
    dsimp only
    rw [hmapof, insertionSort_map (claimDesc query) scoreDesc _ hrel, List.map_take]
  · unfold memoryRelevant
    dsimp only
    have hs := List.sorted_insertionSort scoreDesc
      ((s.filter (fun e => !e.is_expired now)).map
        (fun e => e.withScore (relevantScore (lowerStr query) e)))
    exact hs.sublist (List.take_sublist _ _)

/-- Witness for C6 at a concrete input: query `"a"` over the empty store. -/
theorem c6_relevant_matches_spec_witness :
    memoryRelevant ['a'] [] 0 0 = claimRelevant ['a'] [] 0 0 ∧
    (memoryRelevant ['a'] [] 0 0).Sorted scoreDesc :=
  c6_relevant_matches_spec ['a'] [] 0 0 (by decide)

/-! ## C7: tokens, cosine bounds -/

theorem foldr_wordsStep_substring (s : Str) :
    (∀ w ∈ s.foldr wordsStep [], w <:+: s) ∧
    (∀ w ws, s.foldr wordsStep [] = w :: ws → w <+: s) := by
  induction s with
  | nil =>
    exact ⟨fun w hw => absurd hw (List.not_mem_nil w), fun w ws h => by cases h⟩
  | cons c cs ih =>
    rw [List.foldr_cons]
    by_cases hws : isUniWs c
    · rw [show wordsStep c (cs.foldr wordsStep []) = [] :: cs.foldr wordsStep [] from by
        unfold wordsStep; rw [if_pos hws]]
      constructor
      · intro w hw
        rcases List.mem_cons.mp hw with rfl | hw'
        · exact List.nil_infix
        · exact List.infix_cons (ih.1 w hw')
      · intro w ws h
        injection h with h1 _
        subst h1
        exact List.nil_prefix
    · cases hres : cs.foldr wordsStep [] with
      | nil =>
        rw [show wordsStep c [] = [[c]] from by unfold wordsStep; rw [if_neg hws]]
        constructor
        · intro w hw
          simp only [List.mem_singleton] at hw
          subst hw
          exact (List.cons_prefix_cons.mpr ⟨rfl, List.nil_prefix⟩).isInfix
        · intro w ws h
          injection h with h1 _
          subst h1
          exact List.cons_prefix_cons.mpr ⟨rfl, List.nil_prefix⟩
      | cons w0 ws0 =>
        have hpre : w0 <+: cs := ih.2 w0 ws0 hres
        have hmem0 : ∀ w ∈ w0 :: ws0, w <:+: cs := by
          intro w hw
          exact ih.1 w (by rw [hres]; exact hw)
        rw [show wordsStep c (w0 :: ws0) = (c :: w0) :: ws0 from by
          unfold wordsStep; rw [if_neg hws]]
        constructor
        · intro w hw
          rcases List.mem_cons.mp hw with rfl | hw'
          · exact (List.cons_prefix_cons.mpr ⟨rfl, hpre⟩).isInfix
          · exact List.infix_cons (hmem0 w (List.mem_cons_of_mem _ hw'))
        · intro w ws h
          injection h with h1 _
          subst h1
          exact List.cons_prefix_cons.mpr ⟨rfl, hpre⟩

theorem splitWs_substring (s : Str) : ∀ w ∈ splitWs s, w <:+: s := by
  intro w hw
  exact (foldr_wordsStep_substring s).1 w (List.mem_of_mem_filter hw)

theorem embedCounts_nonneg (text : Str) : ∀ i, 0 ≤ embedCounts text i :=
  fun _ => Nat.zero_le _

theorem dotQ_nonneg (x y : Str) : 0 ≤ dotQ (embedCounts x) (embedCounts y) :=
  Nat.zero_le _

theorem dotQ_cast (a b : Fin 64 → ℕ) :
    ((dotQ a b : ℕ) : ℝ) = ∑ i, (a i : ℝ) * (b i : ℝ) := by
  rw [dotQ]
  push_cast
  rfl

theorem cosine_sim_eq (x y : Str) :
    cosine_sim (text_embedding x) (text_embedding y) =
      ((dotQ (embedCounts x) (embedCounts y) : ℕ) : ℝ) /
        (Real.sqrt ((dotQ (embedCounts x) (embedCounts x) : ℕ) : ℝ) *
         Real.sqrt ((dotQ (embedCounts y) (embedCounts y) : ℕ) : ℝ)) := by
  unfold cosine_sim text_embedding
  dsimp only
  rw [dotQ_cast, dotQ_cast, dotQ_cast]
  set u : Fin 64 → ℝ := fun i => (embedCounts x i : ℝ) with hu
  set w : Fin 64 → ℝ := fun i => (embedCounts y i : ℝ) with hw
  have hSu : (0:ℝ) ≤ ∑ i, u i * u i := Finset.sum_nonneg fun i _ => mul_self_nonneg _
  have hSw : (0:ℝ) ≤ ∑ i, w i * w i := Finset.sum_nonneg fun i _ => mul_self_nonneg _
  by_cases hx : 0 < Real.sqrt (∑ i, u i * u i)
  · by_cases hy : 0 < Real.sqrt (∑ i, w i * w i)
    · rw [if_pos hx, if_pos hy]
      rw [eq_div_iff (by positivity)]
      rw [Finset.sum_mul]
      apply Finset.sum_congr rfl
      intro i _
      field_simp
    · -- w is the zero vector
      have hw0 : ∀ i, w i = 0 := by
        have hS : (∑ i, w i * w i) = 0 := by
          have h0 : Real.sqrt (∑ i, w i * w i) = 0 :=
            le_antisymm (not_lt.mp hy) (Real.sqrt_nonneg _)
          exact (Real.sqrt_eq_zero hSw).mp h0
        intro i
        exact mul_self_eq_zero.mp
          ((Finset.sum_eq_zero_iff_of_nonneg
            (fun i _ => mul_self_nonneg (w i))).mp hS i (Finset.mem_univ i))
      rw [if_pos hx, if_neg hy]
      have h1 : ∀ i, u i / Real.sqrt (∑ j, u j * u j) * w i = 0 := by
        intro i
        rw [hw0 i, mul_zero]
      have h2 : (∑ i, u i * w i) = 0 :=
        Finset.sum_eq_zero fun i _ => by rw [hw0 i, mul_zero]
      rw [Finset.sum_eq_zero fun i _ => h1 i, h2, zero_div]
  · -- u is the zero vector
    have hu0 : ∀ i, u i = 0 := by
      have hS : (∑ i, u i * u i) = 0 := by
        have h0 : Real.sqrt (∑ i, u i * u i) = 0 :=
          le_antisymm (not_lt.mp hx) (Real.sqrt_nonneg _)
        exact (Real.sqrt_eq_zero hSu).mp h0
      intro i
      exact mul_self_eq_zero.mp
        ((Finset.sum_eq_zero_iff_of_nonneg
          (fun i _ => mul_self_nonneg (u i))).mp hS i (Finset.mem_univ i))
    rw [if_neg hx]
    have h2 : (∑ i, u i * w i) = 0 :=
      Finset.sum_eq_zero fun i _ => by rw [hu0 i, zero_mul]
    have h1 : (∑ i, u i * (if 0 < Real.sqrt (∑ j, w j * w j) then
        fun k => w k / Real.sqrt (∑ j, w j * w j) else w) i) = 0 := by
      apply Finset.sum_eq_zero
      intro i _
      rw [hu0 i, zero_mul]
    rw [h1, h2, zero_div]

theorem cosine_sim_text_nonneg (x y : Str) :
    0 ≤ cosine_sim (text_embedding x) (text_embedding y) := by
  rw [cosine_sim_eq]
  apply div_nonneg
  · exact_mod_cast dotQ_nonneg x y
  · positivity

theorem cosine_sim_text_le_one (x y : Str) :
    cosine_sim (text_embedding x) (text_embedding y) ≤ 1 := by
  rw [cosine_sim_eq]
  set d := ((dotQ (embedCounts x) (embedCounts y) : ℕ) : ℝ) with hd_def
  set a := ((dotQ (embedCounts x) (embedCounts x) : ℕ) : ℝ) with ha_def
  set b := ((dotQ (embedCounts y) (embedCounts y) : ℕ) : ℝ) with hb_def
  have ha : 0 ≤ a := by rw [ha_def]; exact_mod_cast dotQ_nonneg x x
  have hb : 0 ≤ b := by rw [hb_def]; exact_mod_cast dotQ_nonneg y y
  have hd : 0 ≤ d := by rw [hd_def]; exact_mod_cast dotQ_nonneg x y
  have hcs : d ^ 2 ≤ a * b := by
    have h := Finset.sum_mul_sq_le_sq_mul_sq Finset.univ
      (fun i => (embedCounts x i : ℝ)) (fun i => (embedCounts y i : ℝ))
    rw [hd_def, ha_def, hb_def, dotQ_cast, dotQ_cast, dotQ_cast]
    calc (∑ i, (embedCounts x i : ℝ) * (embedCounts y i : ℝ)) ^ 2
        ≤ (∑ i, (embedCounts x i : ℝ) ^ 2) * ∑ i, (embedCounts y i : ℝ) ^ 2 := h
      _ = (∑ i, (embedCounts x i : ℝ) * (embedCounts x i : ℝ)) *
            ∑ i, (embedCounts y i : ℝ) * (embedCounts y i : ℝ) := by
          congr 1 <;> exact Finset.sum_congr rfl fun i _ => sq (_ : ℝ) ▸ by ring
  have hsqrt : d ≤ Real.sqrt a * Real.sqrt b := by
    rw [← Real.sqrt_mul ha]
    exact (Real.le_sqrt hd (mul_nonneg ha hb)).mpr hcs
  by_cases hab : 0 < Real.sqrt a * Real.sqrt b
  · exact (div_le_one hab).mpr hsqrt
  · have h0 : Real.sqrt a * Real.sqrt b = 0 :=
      le_antisymm (not_lt.mp hab) (mul_nonneg (Real.sqrt_nonneg a) (Real.sqrt_nonneg b))
    rw [h0, div_zero]
    norm_num

theorem get_congr {α : Type} {l l2 : List α} (h : l = l2) (j : ℕ) (hj : j < l.length)
    (hj2 : j < l2.length) : l.get ⟨j, hj⟩ = l2.get ⟨j, hj2⟩ := by
  subst h
  rfl

theorem get_take_eq {α : Type} (l : List α) (n j : ℕ) (hj : j < (l.take n).length)
    (hj2 : j < l.length) : (l.take n).get ⟨j, hj⟩ = l.get ⟨j, hj2⟩ := by
  simp [List.get_eq_getElem, List.getElem_take]

/-- **C7 (amended)**: for a non-empty query and two entries in the same store equal in
importance and update time, where exactly one contains the lowercased query as a
substring of its lowercased key or value, the containing entry's relevance score is at
least **1.0** higher than the other's (4.0 from the full-match bonus less at most 3.0 of
cosine-similarity difference — not 4.0, see the counterexample), and the containing
entry is ordered before the other wherever the other appears in the result of
`relevant`. -/
theorem c7_ranking_monotonicity (query : Str) (s : StoreEntries) (now : ℤ)
    (limit : ℕ) (A B : MemoryEntry)
    (hq : query ≠ [])
    (hA : A ∈ s) (hB : B ∈ s) (hnd : KeysNodup s) (hkeys : A.key ≠ B.key)
    (himp : A.importance = B.importance) (hupd : A.updated_at = B.updated_at)
    (hexpA : A.is_expired now = false) (hexpB : B.is_expired now = false)
    (hcontA : lowerStr query <:+: lowerStr A.key ∨ lowerStr query <:+: lowerStr A.value)
    (hcontB : ¬(lowerStr query <:+: lowerStr B.key ∨
      lowerStr query <:+: lowerStr B.value)) :
    relevantScore (lowerStr query) B + 1 ≤ relevantScore (lowerStr query) A ∧
    ∀ (j : ℕ) (hj : j < (memoryRelevant query s now limit).length),
      ((memoryRelevant query s now limit).get ⟨j, hj⟩).key = B.key →
      ∃ (i : ℕ) (hi : i < (memoryRelevant query s now limit).length),
        i < j ∧ ((memoryRelevant query s now limit).get ⟨i, hi⟩).key = A.key := by
  have hqne := lowerStr_ne_nil hq
  have hscore : relevantScore (lowerStr query) B + 1 ≤ relevantScore (lowerStr query) A := by
    unfold relevantScore
    dsimp only
    rw [if_neg hqne, if_neg hqne, if_pos hcontA, if_neg hcontB]
    have hcount : (splitWs (lowerStr query)).countP
        (fun t => decide (3 ≤ strLen t)
          && (decide (t <:+: lowerStr B.key) || decide (t <:+: lowerStr B.value))) ≤
        (splitWs (lowerStr query)).countP
        (fun t => decide (3 ≤ strLen t)
          && (decide (t <:+: lowerStr A.key) || decide (t <:+: lowerStr A.value))) := by
      apply List.countP_mono_left
      intro t ht hpt
      have htq : t <:+: lowerStr query := splitWs_substring _ t ht
      have hlen : 3 ≤ strLen t := by
        rw [Bool.and_eq_true] at hpt
        exact of_decide_eq_true hpt.1
      have hAc : t <:+: lowerStr A.key ∨ t <:+: lowerStr A.value := by
        rcases hcontA with h | h
        · exact Or.inl (htq.trans h)
        · exact Or.inr (htq.trans h)
      rcases hAc with h | h <;> simp [hlen, h]
    have hcosA := cosine_sim_text_nonneg (lowerStr query)
      (lowerStr A.key ++ [' '] ++ lowerStr A.value)
    have hcosB := cosine_sim_text_le_one (lowerStr query)
      (lowerStr B.key ++ [' '] ++ lowerStr B.value)
    have himp' : (A.importance : ℝ) = (B.importance : ℝ) := by exact_mod_cast himp
    have hupd' : (A.updated_at : ℝ) = (B.updated_at : ℝ) := by exact_mod_cast hupd
    have hcount' : ((splitWs (lowerStr query)).countP
        (fun t => decide (3 ≤ strLen t)
          && (decide (t <:+: lowerStr B.key) || decide (t <:+: lowerStr B.value))) : ℝ) ≤
        ((splitWs (lowerStr query)).countP
        (fun t => decide (3 ≤ strLen t)
          && (decide (t <:+: lowerStr A.key) || decide (t <:+: lowerStr A.value))) : ℝ) := by
      exact_mod_cast hcount
    linarith
  refine ⟨hscore, ?_⟩
  intro j hj hBkey
  have hout : memoryRelevant query s now limit =
      (((s.filter (fun e => !e.is_expired now)).map
        (fun e => e.withScore (relevantScore (lowerStr query) e))).insertionSort
          scoreDesc).take limit := rfl
  set f := fun e : MemoryEntry => e.withScore (relevantScore (lowerStr query) e) with hf
  set cands := s.filter (fun e => !e.is_expired now) with hcands
  set sorted := (cands.map f).insertionSort scoreDesc with hsortdef
  have hjtake : j < (sorted.take limit).length := by rw [← hout]; exact hj
  have hjlen : j < sorted.length := by
    rw [List.length_take] at hjtake
    omega
  have hjel : (memoryRelevant query s now limit).get ⟨j, hj⟩ = sorted.get ⟨j, hjlen⟩ :=
    (get_congr hout j hj hjtake).trans (get_take_eq sorted limit j hjtake hjlen)
  have hsortedmem : sorted.get ⟨j, hjlen⟩ ∈ cands.map f :=
    ((List.perm_insertionSort _ _).mem_iff).mp (List.get_mem sorted _ _)
  rcases List.mem_map.mp hsortedmem with ⟨c, hc, hcf⟩
  have hcB : c = B := by
    apply key_inj_of_nodup hnd (List.mem_of_mem_filter hc) hB
    have h1 : (sorted.get ⟨j, hjlen⟩).key = B.key := by rw [← hjel]; exact hBkey
    rw [← hcf] at h1
    exact h1
  rw [hcB] at hcf
  have hAmem : f A ∈ cands.map f :=
    List.mem_map_of_mem f (List.mem_filter.mpr ⟨hA, by simp [hexpA]⟩)
  have hAin : f A ∈ sorted := ((List.perm_insertionSort _ _).mem_iff).mpr hAmem
  rcases List.mem_iff_get.mp hAin with ⟨⟨i, hilen⟩, hiel⟩
  have hij : i < j := by
    rcases lt_trichotomy i j with h | h | h
    · exact h
    · exfalso
      have hji : sorted.get ⟨j, hjlen⟩ = f A := by
        have hfin : (⟨i, hilen⟩ : Fin sorted.length) = ⟨j, hjlen⟩ := Fin.ext h
        exact hfin ▸ hiel
      have hkeq : A.key = B.key := by
        have h2 : f A = f B := by rw [← hji, ← hcf]
        calc A.key = (f A).key := rfl
          _ = (f B).key := by rw [h2]
          _ = B.key := rfl
      exact hkeys hkeq
    · exfalso
      have hsorted2 := List.sorted_insertionSort scoreDesc (cands.map f)
      have hrel : scoreDesc (sorted.get ⟨j, hjlen⟩) (sorted.get ⟨i, hilen⟩) :=
        hsorted2.rel_get_of_lt h
      rw [hiel, ← hcf] at hrel
      have hle : relevantScore (lowerStr query) A ≤ relevantScore (lowerStr query) B :=
        hrel
      linarith
  have hitake : i < (sorted.take limit).length := by
    rw [List.length_take] at hjtake ⊢
    omega
  have hiout : i < (memoryRelevant query s now limit).length := by
    rw [hout]
    exact hitake
  refine ⟨i, hiout, hij, ?_⟩
  have hieq : (memoryRelevant query s now limit).get ⟨i, hiout⟩ = sorted.get ⟨i, hilen⟩ :=
    (get_congr hout i hiout hitake).trans (get_take_eq sorted limit i hitake hilen)
  rw [hieq, hiel]
  rfl

/-- Witness for the amended C7 at a concrete input: the two-entry store `[c7A, c7B]`
with query `"aaa bbb"`, which only `c7A` contains. -/
theorem c7_ranking_monotonicity_witness :
    relevantScore (lowerStr c7Query) c7B + 1 ≤ relevantScore (lowerStr c7Query) c7A ∧
    ∀ (j : ℕ) (hj : j < (memoryRelevant c7Query [c7A, c7B] 0 2).length),
      ((memoryRelevant c7Query [c7A, c7B] 0 2).get ⟨j, hj⟩).key = c7B.key →
      ∃ (i : ℕ) (hi : i < (memoryRelevant c7Query [c7A, c7B] 0 2).length),
        i < j ∧ ((memoryRelevant c7Query [c7A, c7B] 0 2).get ⟨i, hi⟩).key = c7A.key :=
  c7_ranking_monotonicity c7Query [c7A, c7B] 0 2 c7A c7B (by decide) (by decide)
    (by decide) (by decide) (by decide) (by decide) (by decide) (by decide) (by decide)
    (by decide) (by decide)

/-- **C7 (counterexample)**: the claim's "at least 4.0 higher" is false.  `c7A` and
`c7B` agree on every stored field except key and value; only `c7A` contains the query
`"aaa bbb"` as a substring; yet `c7A`'s relevance score exceeds `c7B`'s by strictly less
than 4.0, because `c7B`'s bag of words (`"aaa"`, `"bbb"`) equals the query's — cosine
similarity exactly 1 — while `c7A`'s extra word `"qq"` dilutes its cosine similarity to
`2/√6 < 1`. -/
theorem c7_counterexample :
    (lowerStr c7Query <:+: lowerStr c7A.key ∨ lowerStr c7Query <:+: lowerStr c7A.value) ∧
    ¬(lowerStr c7Query <:+: lowerStr c7B.key ∨
      lowerStr c7Query <:+: lowerStr c7B.value) ∧
    c7A.importance = c7B.importance ∧ c7A.updated_at = c7B.updated_at ∧
    c7A.scope = c7B.scope ∧ c7A.scope_id = c7B.scope_id ∧
    c7A.category = c7B.category ∧ c7A.created_at = c7B.created_at ∧
    c7A.expires_at = c7B.expires_at ∧
    relevantScore (lowerStr c7Query) c7A < relevantScore (lowerStr c7Query) c7B + 4 := by
  refine ⟨by decide, by decide, rfl, rfl, rfl, rfl, rfl, rfl, rfl, ?_⟩
  have hqA : lowerStr c7Query ≠ [] := by decide
  unfold relevantScore
  dsimp only
  rw [if_neg hqA, if_neg hqA]
  rw [if_pos (show lowerStr c7Query <:+: lowerStr c7A.key ∨
      lowerStr c7Query <:+: lowerStr c7A.value from by decide)]
  rw [if_neg (show ¬(lowerStr c7Query <:+: lowerStr c7B.key ∨
      lowerStr c7Query <:+: lowerStr c7B.value) from by decide)]
  rw [show (splitWs (lowerStr c7Query)).countP
      (fun t => decide (3 ≤ strLen t)
        && (decide (t <:+: lowerStr c7A.key) || decide (t <:+: lowerStr c7A.value))) = 2
      from by decide]
  rw [show (splitWs (lowerStr c7Query)).countP
      (fun t => decide (3 ≤ strLen t)
        && (decide (t <:+: lowerStr c7B.key) || decide (t <:+: lowerStr c7B.value))) = 2
      from by decide]
  rw [cosine_sim_eq, cosine_sim_eq]
  rw [show dotQ (embedCounts (lowerStr c7Query))
      (embedCounts (lowerStr c7A.key ++ [' '] ++ lowerStr c7A.value)) = 2 from by decide]
  rw [show dotQ (embedCounts (lowerStr c7Query)) (embedCounts (lowerStr c7Query)) = 2
      from by decide]
  rw [show dotQ (embedCounts (lowerStr c7A.key ++ [' '] ++ lowerStr c7A.value))
      (embedCounts (lowerStr c7A.key ++ [' '] ++ lowerStr c7A.value)) = 3 from by decide]
  rw [show dotQ (embedCounts (lowerStr c7Query))
      (embedCounts (lowerStr c7B.key ++ [' '] ++ lowerStr c7B.value)) = 2 from by decide]
  rw [show dotQ (embedCounts (lowerStr c7B.key ++ [' '] ++ lowerStr c7B.value))
      (embedCounts (lowerStr c7B.key ++ [' '] ++ lowerStr c7B.value)) = 2 from by decide]
  rw [show c7A.importance = 1 from rfl, show c7B.importance = 1 from rfl,
    show c7A.updated_at = 0 from rfl, show c7B.updated_at = 0 from rfl]
  have h6 : Real.sqrt 2 * Real.sqrt 3 = Real.sqrt 6 := by
    rw [← Real.sqrt_mul (by norm_num)]
    norm_num
  have h22 : Real.sqrt 2 * Real.sqrt 2 = 2 := Real.mul_self_sqrt (by norm_num)
  have hs6 : (0:ℝ) < Real.sqrt 6 := Real.sqrt_pos.mpr (by norm_num)
  have hlt : (2:ℝ) / Real.sqrt 6 < 1 := by
    rw [div_lt_one hs6]
    exact (Real.lt_sqrt (by norm_num)).mpr (by norm_num)
  push_cast
  rw [h6, h22]
  norm_num
  linarith

/-! ## C8: the merge pass -/

theorem foldl_fun_congr {α β : Type} {f g : β → α → β} (h : ∀ b a, f b a = g b a)
    (l : List α) (init : β) : l.foldl f init = l.foldl g init := by
  induction l generalizing init with
  | nil => rfl
  | cons x t ih => rw [List.foldl_cons, List.foldl_cons, h, ih]

theorem foldl_range_getD {α β : Type} (g : β → α → β) (d : α) :
    ∀ (l : List α) (init : β),
      (List.range l.length).foldl (fun acc i => g acc (l.getD i d)) init =
        l.foldl g init := by
  intro l
  induction l with
  | nil => intro init; rfl
  | cons x t ih =>
    intro init
    rw [List.length_cons, List.range_succ_eq_map, List.foldl_cons, List.foldl_map]
    simp only [List.getD_cons_zero, List.getD_cons_succ, Nat.succ_eq_add_one]
    exact ih (g init x)

theorem mergePassIdx_nil (st : StoreEntries × ℕ) : mergePassIdx [] st = st := rfl

theorem mergePassIdx_cons (k : Str) (rest : List Str) (st : StoreEntries × ℕ) :
    mergePassIdx (k :: rest) st =
      mergePassIdx rest (rest.foldl (fun acc kj => mergeStep k kj acc) st) := by
  unfold mergePassIdx
  rw [List.length_cons, List.range_succ_eq_map, List.foldl_cons, List.foldl_map]
  have hinner : (List.range' (0 + 1) (rest.length + 1 - (0 + 1))).foldl
      (fun acc2 j => mergeStep ((k :: rest).getD 0 []) ((k :: rest).getD j []) acc2) st =
      rest.foldl (fun acc kj => mergeStep k kj acc) st := by
    rw [List.range'_eq_map_range, List.foldl_map]
    have hptwise : ∀ (b : StoreEntries × ℕ) (j : ℕ),
        mergeStep ((k :: rest).getD 0 []) ((k :: rest).getD (1 + j) []) b =
          mergeStep k (rest.getD j []) b := by
      intro b j
      have h1 : (1 : ℕ) + j = j + 1 := Nat.add_comm 1 j
      rw [List.getD_cons_zero, h1, List.getD_cons_succ]
    rw [foldl_fun_congr hptwise]
    exact foldl_range_getD (fun acc kj => mergeStep k kj acc) [] rest st
  rw [hinner]
  apply foldl_fun_congr
  intro b i
  have hlen : rest.length + 1 - (i + 1 + 1) = rest.length - (i + 1) :=
    Nat.succ_sub_succ _ _
  rw [hlen, List.getD_cons_succ]
  rw [List.range'_eq_map_range, List.range'_eq_map_range, List.foldl_map, List.foldl_map]
  apply foldl_fun_congr
  intro b2 j
  have h2 : i + 1 + 1 + j = (i + 1 + j) + 1 := by omega
  rw [h2, List.getD_cons_succ]

theorem mergePassIdx_eq_spec : ∀ (keys : List Str) (st : StoreEntries × ℕ),
    mergePassIdx keys st = mergePassSpec keys st := by
  intro keys
  induction keys with
  | nil => intro st; rfl
  | cons k rest ih =>
    intro st
    rw [mergePassIdx_cons, mergePassSpec, ih]

theorem length_eraseP_of_exists {α : Type} (p : α → Bool) :
    ∀ l : List α, (∃ x ∈ l, p x = true) → (l.eraseP p).length + 1 = l.length := by
  intro l
  induction l with
  | nil =>
    rintro ⟨x, hx, -⟩
    cases hx
  | cons a t ih =>
    rintro ⟨x, hx, hpx⟩
    by_cases hpa : p a = true
    · simp [List.eraseP_cons, hpa]
    · have hxt : x ∈ t := by
        rcases List.mem_cons.mp hx with rfl | h
        · exact absurd hpx hpa
        · exact h
      have hrec := ih ⟨x, hxt, hpx⟩
      have hpa' : p a = false := by simpa using hpa
      simp only [List.eraseP_cons, hpa', cond_false, List.length_cons]
      omega

theorem mergeStep_count (ki kj : Str) (st : StoreEntries × ℕ) :
    (mergeStep ki kj st).1.length + (mergeStep ki kj st).2 = st.1.length + st.2 := by
  unfold mergeStep
  cases hfi : st.1.find? (·.key == ki) with
  | none => rfl
  | some a =>
    cases hfj : st.1.find? (·.key == kj) with
    | none => rfl
    | some b =>
      dsimp only
      by_cases hc : mergeCond a b
      · rw [if_pos hc]
        dsimp only
        have hb : b ∈ st.1 := List.mem_of_find?_eq_some hfj
        have hbk : (b.key == kj) = true :=
          @List.find?_some _ (fun x => x.key == kj) b st.1 hfj
        have hfbkey : ((fun e : MemoryEntry =>
            if e.key == ki then
              { e with updated_at := max e.updated_at b.updated_at,
                       importance := max e.importance b.importance + 1/5 }
            else e) b).key = b.key := by
          dsimp only
          by_cases h : (b.key == ki) = true
          · rw [if_pos h]
          · rw [if_neg h]
        have hmem : ∃ x ∈ st.1.map (fun e : MemoryEntry =>
            if e.key == ki then
              { e with updated_at := max e.updated_at b.updated_at,
                       importance := max e.importance b.importance + 1/5 }
            else e), (x.key == kj) = true :=
          ⟨_, List.mem_map_of_mem _ hb, by rw [hfbkey]; exact hbk⟩
        have hlen := length_eraseP_of_exists _ _ hmem
        have hmaplen : (st.1.map (fun e : MemoryEntry =>
            if e.key == ki then
              { e with updated_at := max e.updated_at b.updated_at,
                       importance := max e.importance b.importance + 1/5 }
            else e)).length = st.1.length := List.length_map _ _
        unfold storeRemove
        omega
      · rw [if_neg hc]

theorem mergePassIdx_count (keys : List Str) (st : StoreEntries × ℕ) :
    (mergePassIdx keys st).1.length + (mergePassIdx keys st).2 =
      st.1.length + st.2 := by
  unfold mergePassIdx
  apply foldl_preserves
    (fun b : StoreEntries × ℕ => b.1.length + b.2 = st.1.length + st.2)
  · rfl
  · intro b i hb
    apply foldl_preserves
      (fun b2 : StoreEntries × ℕ => b2.1.length + b2.2 = st.1.length + st.2) _ _ b hb
    intro b2 j hb2
    exact (mergeStep_count _ _ b2).trans hb2

/-- **C8**: the merge pass of `compact` behaves exactly as the spec's sentence
describes.  `mergeStep` is the loop body verbatim: two still-present entries are merged
exactly when their normalised values are equal or their hashed-embedding cosine
similarity exceeds 0.95; on each merge the earlier key's entry takes
`updated_at = max(both)` and `importance = max(both importances) + 0.2`, the later key
is deleted, and the `merged` counter advances by one.  The theorem proves (i) the
source's index-based double loop over the sorted key list equals the spec-side
recursion `mergePassSpec`, which pairs each remaining key with every later key in
ascending key order; (ii) every merge deletes exactly one entry: final count + merges =
initial count; (iii) hence `compact`'s `merged` counter is exactly the number of
entries the merge pass removed from the expiry-cleaned store. -/
theorem c8_merge_pass :
    (∀ (keys : List Str) (st : StoreEntries × ℕ),
       mergePassIdx keys st = mergePassSpec keys st) ∧
    (∀ (keys : List Str) (st : StoreEntries × ℕ),
       (mergePassIdx keys st).1.length + (mergePassIdx keys st).2 =
         st.1.length + st.2) ∧
    (∀ (scope : MemoryScope) (s : StoreEntries) (now : ℤ),
       (memoryCompact scope s now).2.merged +
         (mergePassIdx (sortedKeys (storeCleanup s now).1)
           ((storeCleanup s now).1, 0)).1.length =
         (storeCleanup s now).1.length) := by
  refine ⟨mergePassIdx_eq_spec, mergePassIdx_count, ?_⟩
  intro scope s now
  have h := mergePassIdx_count (sortedKeys (storeCleanup s now).1)
    ((storeCleanup s now).1, 0)
  dsimp only at h
  have hm : (memoryCompact scope s now).2.merged =
      (mergePassIdx (sortedKeys (storeCleanup s now).1)
        ((storeCleanup s now).1, 0)).2 := rfl
  rw [hm]
  omega
